import Mathlib

/-!
Verification of the fluxcap natural-language time interpreter
(src/fluxcap/src/time.rs).  The grammar, the tree evaluator and the
facade are embedded from the source; the external collaborators
(kronos calendar sequences, earlgrey parser, lexers tokenizer) are
modelled from the specification, as marked on each definition.
Reference instants are modelled at day granularity: a `DateTime` is the
integer number of days since 1970-01-01 (all combinators in the grammar
operate on whole calendar days).
-/

namespace fluxcap

/-! ### Proleptic Gregorian calendar arithmetic (days since 1970-01-01) -/

def isLeap (y : ℤ) : Bool :=
  (y % 4 == 0 && y % 100 != 0) || y % 400 == 0

def mdays (y m : ℤ) : ℤ :=
  if m == 2 then (if isLeap y then 29 else 28)
  else if m == 4 || m == 6 || m == 9 || m == 11 then 30
  else 31

/-- Day index from a civil date (Hinnant days-from-civil, epoch 1970-01-01). -/
def dfc (y m d : ℤ) : ℤ :=
  let yy := if m ≤ 2 then y - 1 else y
  let era := yy / 400
  let yoe := yy % 400
  let mp := if m ≤ 2 then m + 9 else m - 3
  let doy := (153 * mp + 2) / 5 + d - 1
  let doe := yoe * 365 + yoe / 4 - yoe / 100 + doy
  era * 146097 + doe - 719468

structure Civil where
  y : ℤ
  m : ℤ
  d : ℤ
deriving DecidableEq, Repr

/-- Civil date from a day index (Hinnant civil-from-days). -/
def civil (z : ℤ) : Civil :=
  let z2 := z + 719468
  let era := z2 / 146097
  let doe := z2 % 146097
  let yoe := (doe - doe / 1460 + doe / 36524 - doe / 146096) / 365
  let y := yoe + era * 400
  let doy := doe - (365 * yoe + yoe / 4 - yoe / 100)
  let mp := (5 * doy + 2) / 153
  let dd := doy - (153 * mp + 2) / 5 + 1
  let mm := mp + (if mp < 10 then 3 else -9)
  ⟨(if mm ≤ 2 then y + 1 else y), mm, dd⟩

/-- First day of the month with absolute month index `mi` (months since year 0 January). -/
def fdm (mi : ℤ) : ℤ :=
  dfc (mi / 12) (mi % 12 + 1) 1

/-- Absolute month index of the month containing day `t`. -/
def monthIndexOf (t : ℤ) : ℤ :=
  let c := civil t
  12 * c.y + (c.m - 1)

/-- Weekday of a day index, 0 = Sunday .. 6 = Saturday (1970-01-01 was a Thursday). -/
def weekdayOf (t : ℤ) : ℤ :=
  (t + 4) % 7

/-! ### Lexical resolution.
Modelled from the spec: kronos constants expose ordinal/short-ordinal
word-to-integer, weekday word-to-enum and month word-to-enum lookups, all
returning an absent value for unrecognized input (spec section 6). -/

/-- Modelled from the spec: kronos ordinal word lookup ("first" .. "thirty-first"). -/
def ordinal (s : String) : Option ℕ :=
  ([("first", 1), ("second", 2), ("third", 3), ("fourth", 4), ("fifth", 5),
    ("sixth", 6), ("seventh", 7), ("eighth", 8), ("ninth", 9), ("tenth", 10),
    ("eleventh", 11), ("twelfth", 12), ("thirteenth", 13), ("fourteenth", 14),
    ("fifteenth", 15), ("sixteenth", 16), ("seventeenth", 17), ("eighteenth", 18),
    ("nineteenth", 19), ("twentieth", 20), ("twenty-first", 21), ("twenty-second", 22),
    ("twenty-third", 23), ("twenty-fourth", 24), ("twenty-fifth", 25),
    ("twenty-sixth", 26), ("twenty-seventh", 27), ("twenty-eighth", 28),
    ("twenty-ninth", 29), ("thirtieth", 30), ("thirty-first", 31)]
   : List (String × ℕ)).lookup s

def digitsVal : List Char → Option ℕ
  | [] => none
  | [c] => if c.isDigit then some (c.toNat - 48) else none
  | c :: rest =>
    if c.isDigit then
      (digitsVal rest).map (fun v => (c.toNat - 48) * 10 ^ rest.length + v)
    else none

/-- Proper English ordinal suffix for a number. -/
def suffixFor (n : ℕ) : String :=
  if n % 100 / 10 == 1 then "th"
  else if n % 10 == 1 then "st"
  else if n % 10 == 2 then "nd"
  else if n % 10 == 3 then "rd"
  else "th"

/-- Modelled from the spec: kronos short-ordinal lookup (digits followed by the
matching ordinal suffix, e.g. "3rd", "12th", "32nd"; no upper bound). -/
def short_ordinal (s : String) : Option ℕ :=
  let cs := s.toList
  let ds := cs.takeWhile Char.isDigit
  let rest := cs.dropWhile Char.isDigit
  match digitsVal ds with
  | none => none
  | some n => if String.mk rest == suffixFor n then some n else none

/-- Modelled from the spec: kronos weekday word lookup (0 = Sunday .. 6 = Saturday). -/
def weekday (s : String) : Option ℕ :=
  ([("sunday", 0), ("sun", 0), ("monday", 1), ("mon", 1),
    ("tuesday", 2), ("tue", 2), ("tues", 2), ("wednesday", 3), ("wed", 3),
    ("thursday", 4), ("thu", 4), ("thur", 4), ("thurs", 4),
    ("friday", 5), ("fri", 5), ("saturday", 6), ("sat", 6)]
   : List (String × ℕ)).lookup s

/-- Modelled from the spec: kronos month word lookup (1 = January .. 12 = December). -/
def month_name (s : String) : Option ℕ :=
  ([("january", 1), ("jan", 1), ("february", 2), ("feb", 2),
    ("march", 3), ("mar", 3), ("april", 4), ("apr", 4), ("may", 5),
    ("june", 6), ("jun", 6), ("july", 7), ("jul", 7),
    ("august", 8), ("aug", 8), ("september", 9), ("sep", 9), ("sept", 9),
    ("october", 10), ("oct", 10), ("november", 11), ("nov", 11),
    ("december", 12), ("dec", 12)]
   : List (String × ℕ)).lookup s

/-- Model of Rust `i32::from_str`: optional sign, digits, value within i32 range. -/
def parseInt (s : String) : Option ℤ :=
  let cs := s.toList
  let signed : Option (ℤ × List Char) :=
    match cs with
    | '-' :: rest => some (-1, rest)
    | '+' :: rest => some (1, rest)
    | rest => some (1, rest)
  match signed with
  | none => none
  | some (sg, ds) =>
    match digitsVal ds with
    | none => none
    | some v =>
      let n : ℤ := sg * v
      if -2147483648 ≤ n ∧ n ≤ 2147483647 then some n else none

/-! ### Calendar sequences.
Modelled from the spec: the kronos collaborator provides lazy infinite
ordered streams of Ranges of fixed grain/shape, generated fresh from any
reference instant, monotonic by start (spec sections 3 and 6).  A sequence
applied at an instant begins with the occurrence containing that instant
when one exists, otherwise with the first occurrence after it. -/

inductive Granularity where
  | Day | Week | Month | Quarter | Year
deriving DecidableEq, Repr

/-- Model of the kronos Range: start instant, exclusive end instant, grain.
The source field named end is called endt here (end is reserved in Lean). -/
structure Range where
  start : ℤ
  endt : ℤ
  grain : Granularity
deriving DecidableEq, Repr

/-- Rank used to pick the finer grain when intersecting sequences. -/
def grainRank : Granularity → ℕ
  | .Day => 0 | .Week => 1 | .Month => 2 | .Quarter => 3 | .Year => 4

def finerGrain (a b : Granularity) : Granularity :=
  if grainRank a ≤ grainRank b then a else b

/-- Deep embedding of the kronos sequence constructors used by the evaluator. -/
inductive KSeq where
  | day | week | month | quarter | year | weekend
  | day_of_week (w : ℕ)
  | month_of_year (m : ℕ)
  | nthof (n : ℕ) (inner outer : KSeq)
  | lastof (n : ℕ) (inner outer : KSeq)
  | intersect (a b : KSeq)
deriving DecidableEq, Repr

/-- Occurrences of `inner` enumerated from the start of the outer occurrence
`o`, kept while they start inside `o` (kronos nth-of/last-of enumeration). -/
def innerListF (innerS : ℤ → ℕ → Range) (o : Range) : List Range :=
  ((List.range ((o.endt - o.start).toNat + 2)).map (fun j => innerS o.start j)).filter
    (fun r => decide (r.start < o.endt))

/-- Picks the i-th outer occurrence that has an n-th (1-indexed) inner
occurrence and returns that inner occurrence; fuel-bounded search with a
one-day fallback (the spec asserts materialization always terminates). -/
def collectNthF (pick : Range → Option Range) (outerS : ℕ → Range) (t : ℤ) :
    ℕ → ℕ → ℕ → Range
  | 0, _, _ => ⟨t, t + 1, Granularity.Day⟩
  | fuel + 1, j, i =>
    match pick (outerS j) with
    | some r => if i = 0 then r else collectNthF pick outerS t fuel (j + 1) (i - 1)
    | none => collectNthF pick outerS t fuel (j + 1) i

/-- Nonempty pairwise overlaps of one a-occurrence with the b-occurrences
around it; the overlap carries the finer grain. -/
def overlapsF (sb : ℤ → ℕ → Range) (x : Range) : List Range :=
  (((List.range ((x.endt - x.start).toNat + 2)).map (fun k => sb x.start k)).filter
      (fun y => decide (y.start < x.endt) && decide (x.start < y.endt))).map
    (fun y => ⟨max x.start y.start, min x.endt y.endt, finerGrain x.grain y.grain⟩)

/-- Concatenated enumeration of the overlaps of successive a-occurrences,
fuel-bounded with a one-day fallback. -/
def interPickF (sa : ℤ → ℕ → Range) (sb : ℤ → ℕ → Range) (t : ℤ) :
    ℕ → ℕ → ℕ → Range
  | 0, _, _ => ⟨t, t + 1, Granularity.Day⟩
  | fuel + 1, j, i =>
    let l := overlapsF sb (sa t j)
    if h : i < l.length then l.get ⟨i, h⟩
    else interPickF sa sb t fuel (j + 1) (i - l.length)

/-- Modelled from the spec: the stream of occurrences of a kronos sequence
anchored at instant `t`; `streamK k t i` is the i-th occurrence. -/
def streamK : KSeq → ℤ → ℕ → Range
  | .day, t, i => ⟨t + i, t + i + 1, .Day⟩
  | .week, t, i =>
    let s0 := t - (t + 4) % 7
    ⟨s0 + 7 * i, s0 + 7 * i + 7, .Week⟩
  | .month, t, i =>
    ⟨fdm (monthIndexOf t + i), fdm (monthIndexOf t + i + 1), .Month⟩
  | .quarter, t, i =>
    let q0 := (monthIndexOf t) / 3
    ⟨fdm (3 * (q0 + i)), fdm (3 * (q0 + i) + 3), .Quarter⟩
  | .year, t, i =>
    let y0 := (civil t).y
    ⟨dfc (y0 + i) 1 1, dfc (y0 + i + 1) 1 1, .Year⟩
  | .weekend, t, i =>
    let sPrev := t - (weekdayOf t - 6) % 7
    let s0 := if t < sPrev + 2 then sPrev else sPrev + 7
    ⟨s0 + 7 * i, s0 + 7 * i + 2, .Week⟩
  | .day_of_week w, t, i =>
    let d0 := t + ((w : ℤ) - weekdayOf t) % 7
    ⟨d0 + 7 * i, d0 + 7 * i + 1, .Day⟩
  | .month_of_year m, t, i =>
    let mn := ((m : ℤ) - 1) % 12
    let y0 := (civil t).y
    let ys := if t < fdm (12 * y0 + mn + 1) then y0 else y0 + 1
    ⟨fdm (12 * (ys + i) + mn), fdm (12 * (ys + i) + mn + 1), .Month⟩
  | .nthof n inner outer, t, i =>
    collectNthF (fun o => (innerListF (streamK inner) o).get? (n - 1))
      (streamK outer t) t (600 * (i + 2)) 0 i
  | .lastof n inner outer, t, i =>
    collectNthF (fun o => (innerListF (streamK inner) o).reverse.get? (n - 1))
      (streamK outer t) t (600 * (i + 2)) 0 i
  | .intersect a b, t, i =>
    interPickF (streamK a) (streamK b) t (600 * (i + 2)) 0 i

/-- Modelled from the spec: kronos this(seq, reftime), the first occurrence of
the sequence anchored at the reference instant. -/
def thisSeq (k : KSeq) (t : ℤ) : Range :=
  streamK k t 0

/-- Fuel-bounded index of the first occurrence starting strictly after `t`. -/
def firstAfterIdx (f : ℕ → Range) (t : ℤ) : ℕ → ℕ → ℕ
  | 0, i => i
  | fuel + 1, i => if t < (f i).start then i else firstAfterIdx f t fuel (i + 1)

/-- Modelled from the spec: kronos next(seq, n, reftime), the n-th occurrence
starting strictly after the reference instant. -/
def nextSeq (k : KSeq) (n : ℕ) (t : ℤ) : Range :=
  streamK k t (firstAfterIdx (streamK k t) t 1000 0 + (n - 1))

/-- Modelled from the spec: kronos shift moves a range by n grain-units,
preserving span length (month/year arithmetic clamps the day of month). -/
def addGrain (t : ℤ) (n : ℤ) : Granularity → ℤ
  | .Day => t + n
  | .Week => t + 7 * n
  | .Month =>
    let c := civil t
    let mi := 12 * c.y + (c.m - 1) + n
    dfc (mi / 12) (mi % 12 + 1) (min c.d (mdays (mi / 12) (mi % 12 + 1)))
  | .Quarter =>
    let c := civil t
    let mi := 12 * c.y + (c.m - 1) + 3 * n
    dfc (mi / 12) (mi % 12 + 1) (min c.d (mdays (mi / 12) (mi % 12 + 1)))
  | .Year =>
    let c := civil t
    dfc (c.y + n) c.m (min c.d (mdays (c.y + n) c.m))

def shift (r : Range) (n : ℤ) (g : Granularity) : Range :=
  let s := addGrain r.start n g
  ⟨s, s + (r.endt - r.start), r.grain⟩

/-- Modelled from the spec: kronos a_year(y), the fixed calendar-year range. -/
def a_year (y : ℤ) : Range :=
  ⟨dfc y 1 1, dfc (y + 1) 1 1, .Year⟩

/-- Model of the iterator pipeline in eval_timediff: the index left after
skip_while(start < lo), fuel-bounded. -/
def skipIdxF (f : ℕ → Range) (lo : ℤ) : ℕ → ℕ → ℕ
  | 0, i => i
  | fuel + 1, i => if (f i).start < lo then skipIdxF f lo fuel (i + 1) else i

/-- Model of the iterator pipeline in eval_timediff: the count of consecutive
occurrences from index i with start < hi, fuel-bounded. -/
def takeCountF (f : ℕ → Range) (hi : ℤ) : ℕ → ℕ → ℕ
  | 0, _ => 0
  | fuel + 1, i => if (f i).start < hi then takeCountF f hi fuel (i + 1) + 1 else 0

/-- seq(anchor).skip_while(start < lo).take_while(start < hi).count() of the
source, with the spec's termination bound made explicit as fuel. -/
def countSkipTake (k : KSeq) (anchor lo hi : ℤ) : ℕ :=
  let f := streamK k anchor
  takeCountF f hi 4000 (skipIdxF f lo 4000 0)

/-! ### Parse trees and the grammar of build_grammar (src/fluxcap/src/time.rs). -/

/-- Model of the earlgrey Subtree: Leaf(symbol, lexeme) or
Node(rule-signature, children). -/
inductive Subtree where
  | Leaf (sym lexeme : String)
  | Node (spec : String) (children : List Subtree)
deriving Repr

mutual
def yieldOf : Subtree → List String
  | .Leaf _ lexeme => [lexeme]
  | .Node _ children => yieldList children

def yieldList : List Subtree → List String
  | [] => []
  | c :: cs => yieldOf c ++ yieldList cs
end

/-- The nonterminal symbols declared in build_grammar. -/
def nonterminals : List String :=
  ["<S>", "<the>", "<named-seq>", "<duration>", "<cycle>", "<range>",
   "<nth>", "<intersect>", "<n-duration>", "<timediff>"]

def isNT (s : String) : Bool := nonterminals.contains s

/-- The terminal classifying predicates of build_grammar: stop words are
matched by the exact-word regular patterns of the source, and the classed
terminals use the predicates of src/fluxcap/src/time.rs lines 30-41. -/
def leafPred (sym lexeme : String) : Bool :=
  match sym with
  | "days?" => lexeme == "day" || lexeme == "days"
  | "weeks?" => lexeme == "week" || lexeme == "weeks"
  | "months?" => lexeme == "month" || lexeme == "months"
  | "quarters?" => lexeme == "quarter" || lexeme == "quarters"
  | "years?" => lexeme == "year" || lexeme == "years"
  | "weekends?" => lexeme == "weekend" || lexeme == "weekends"
  | "(of|in)" => lexeme == "of" || lexeme == "in"
  | "<number>" => (parseInt lexeme).isSome
  | "<ordinal>" => (ordinal lexeme <|> short_ordinal lexeme).isSome
  | "<day-of-week>" => (weekday lexeme).isSome
  | "<day-of-month>" =>
    match ordinal lexeme <|> short_ordinal lexeme with
    | some dom => decide (0 < dom) && decide (dom < 32)
    | none => false
  | "<named-month>" => (month_name lexeme).isSome
  | "<year>" =>
    match parseInt lexeme with
    | some y => decide (999 < y) && decide (y < 2101)
    | none => false
  | _ =>
    (["today", "tomorrow", "yesterday", "this", "next", "of", "the", "before",
      "after", "last", "until", "from", "to", "and", "between", "in", "a",
      "ago"].contains sym) && lexeme == sym

/-- The stop-word terminals registered in build_grammar (lines 16-28). -/
def stopWords : List String :=
  ["today", "tomorrow", "yesterday",
   "days?", "weeks?", "months?", "quarters?", "years?", "weekends?",
   "this", "next", "of", "the", "(of|in)", "before", "after", "last",
   "until", "from", "to", "and", "between", "in", "a", "ago"]

/-- The productions added in build_grammar (src/fluxcap/src/time.rs lines 43-119),
in source order; the commented-out yesterday / last / before-last rules are absent. -/
def grammarRules : List (String × List String) :=
  [("<the>", []),
   ("<the>", ["the"]),
   ("<named-seq>", ["<named-month>"]),
   ("<named-seq>", ["<day-of-week>"]),
   ("<named-seq>", ["<day-of-month>"]),
   ("<duration>", ["days?"]),
   ("<duration>", ["weeks?"]),
   ("<duration>", ["months?"]),
   ("<duration>", ["quarters?"]),
   ("<duration>", ["years?"]),
   ("<cycle>", ["weekends?"]),
   ("<cycle>", ["<duration>"]),
   ("<cycle>", ["<named-seq>"]),
   ("<range>", ["today"]),
   ("<range>", ["tomorrow"]),
   ("<range>", ["<year>"]),
   ("<range>", ["<named-seq>"]),
   ("<range>", ["<the>", "<day-of-month>"]),
   ("<range>", ["this", "<cycle>"]),
   ("<range>", ["<the>", "next", "<cycle>"]),
   ("<range>", ["<the>", "<cycle>", "after", "next"]),
   ("<nth>", ["<the>", "<ordinal>", "<cycle>", "(of|in)"]),
   ("<nth>", ["<the>", "last", "<cycle>", "(of|in)"]),
   ("<range>", ["<nth>", "<range>"]),
   ("<range>", ["<nth>", "<the>", "<duration>"]),
   ("<intersect>", ["<cycle>"]),
   ("<intersect>", ["<intersect>", "<cycle>"]),
   ("<range>", ["<intersect>", "<cycle>"]),
   ("<range>", ["<intersect>", "<year>"]),
   ("<range>", ["<the>", "<day-of-month>", "of", "<range>"]),
   ("<n-duration>", ["a", "<duration>"]),
   ("<n-duration>", ["<number>", "<duration>"]),
   ("<range>", ["in", "<n-duration>"]),
   ("<range>", ["<n-duration>", "ago"]),
   ("<range>", ["<n-duration>", "after", "<range>"]),
   ("<range>", ["<n-duration>", "before", "<range>"]),
   ("<timediff>", ["<cycle>", "until", "<range>"]),
   ("<timediff>", ["<cycle>", "between", "<range>", "and", "<range>"]),
   ("<timediff>", ["<cycle>", "from", "<range>", "to", "<range>"]),
   ("<S>", ["<range>"]),
   ("<S>", ["<timediff>"])]

/-- The rule-signature string earlgrey attaches to a node for a production. -/
def specOf (lhs : String) (rhs : List String) : String :=
  lhs ++ " -> " ++ String.intercalate " " rhs

mutual
/-- A subtree is a valid derivation of grammar symbol `sym`: leaves carry a
terminal symbol whose classifying predicate accepts the lexeme, nodes carry
the signature of a grammar production (inlined below, one disjunct per
production of grammarRules) whose children conform pointwise. -/
def conformsSym (sym : String) : Subtree → Bool
  | .Leaf s lexeme => !(isNT sym) && s == sym && leafPred sym lexeme
  | .Node spec children =>
    isNT sym &&
    ((sym == "<the>" && spec == "<the> -> " && conformsChildren [] children) ||
    (sym == "<the>" && spec == "<the> -> the" && conformsChildren ["the"] children) ||
    (sym == "<named-seq>" && spec == "<named-seq> -> <named-month>" && conformsChildren ["<named-month>"] children) ||
    (sym == "<named-seq>" && spec == "<named-seq> -> <day-of-week>" && conformsChildren ["<day-of-week>"] children) ||
    (sym == "<named-seq>" && spec == "<named-seq> -> <day-of-month>" && conformsChildren ["<day-of-month>"] children) ||
    (sym == "<duration>" && spec == "<duration> -> days?" && conformsChildren ["days?"] children) ||
    (sym == "<duration>" && spec == "<duration> -> weeks?" && conformsChildren ["weeks?"] children) ||
    (sym == "<duration>" && spec == "<duration> -> months?" && conformsChildren ["months?"] children) ||
    (sym == "<duration>" && spec == "<duration> -> quarters?" && conformsChildren ["quarters?"] children) ||
    (sym == "<duration>" && spec == "<duration> -> years?" && conformsChildren ["years?"] children) ||
    (sym == "<cycle>" && spec == "<cycle> -> weekends?" && conformsChildren ["weekends?"] children) ||
    (sym == "<cycle>" && spec == "<cycle> -> <duration>" && conformsChildren ["<duration>"] children) ||
    (sym == "<cycle>" && spec == "<cycle> -> <named-seq>" && conformsChildren ["<named-seq>"] children) ||
    (sym == "<range>" && spec == "<range> -> today" && conformsChildren ["today"] children) ||
    (sym == "<range>" && spec == "<range> -> tomorrow" && conformsChildren ["tomorrow"] children) ||
    (sym == "<range>" && spec == "<range> -> <year>" && conformsChildren ["<year>"] children) ||
    (sym == "<range>" && spec == "<range> -> <named-seq>" && conformsChildren ["<named-seq>"] children) ||
    (sym == "<range>" && spec == "<range> -> <the> <day-of-month>" && conformsChildren ["<the>", "<day-of-month>"] children) ||
    (sym == "<range>" && spec == "<range> -> this <cycle>" && conformsChildren ["this", "<cycle>"] children) ||
    (sym == "<range>" && spec == "<range> -> <the> next <cycle>" && conformsChildren ["<the>", "next", "<cycle>"] children) ||
    (sym == "<range>" && spec == "<range> -> <the> <cycle> after next" && conformsChildren ["<the>", "<cycle>", "after", "next"] children) ||
    (sym == "<nth>" && spec == "<nth> -> <the> <ordinal> <cycle> (of|in)" && conformsChildren ["<the>", "<ordinal>", "<cycle>", "(of|in)"] children) ||
    (sym == "<nth>" && spec == "<nth> -> <the> last <cycle> (of|in)" && conformsChildren ["<the>", "last", "<cycle>", "(of|in)"] children) ||
    (sym == "<range>" && spec == "<range> -> <nth> <range>" && conformsChildren ["<nth>", "<range>"] children) ||
    (sym == "<range>" && spec == "<range> -> <nth> <the> <duration>" && conformsChildren ["<nth>", "<the>", "<duration>"] children) ||
    (sym == "<intersect>" && spec == "<intersect> -> <cycle>" && conformsChildren ["<cycle>"] children) ||
    (sym == "<intersect>" && spec == "<intersect> -> <intersect> <cycle>" && conformsChildren ["<intersect>", "<cycle>"] children) ||
    (sym == "<range>" && spec == "<range> -> <intersect> <cycle>" && conformsChildren ["<intersect>", "<cycle>"] children) ||
    (sym == "<range>" && spec == "<range> -> <intersect> <year>" && conformsChildren ["<intersect>", "<year>"] children) ||
    (sym == "<range>" && spec == "<range> -> <the> <day-of-month> of <range>" && conformsChildren ["<the>", "<day-of-month>", "of", "<range>"] children) ||
    (sym == "<n-duration>" && spec == "<n-duration> -> a <duration>" && conformsChildren ["a", "<duration>"] children) ||
    (sym == "<n-duration>" && spec == "<n-duration> -> <number> <duration>" && conformsChildren ["<number>", "<duration>"] children) ||
    (sym == "<range>" && spec == "<range> -> in <n-duration>" && conformsChildren ["in", "<n-duration>"] children) ||
    (sym == "<range>" && spec == "<range> -> <n-duration> ago" && conformsChildren ["<n-duration>", "ago"] children) ||
    (sym == "<range>" && spec == "<range> -> <n-duration> after <range>" && conformsChildren ["<n-duration>", "after", "<range>"] children) ||
    (sym == "<range>" && spec == "<range> -> <n-duration> before <range>" && conformsChildren ["<n-duration>", "before", "<range>"] children) ||
    (sym == "<timediff>" && spec == "<timediff> -> <cycle> until <range>" && conformsChildren ["<cycle>", "until", "<range>"] children) ||
    (sym == "<timediff>" && spec == "<timediff> -> <cycle> between <range> and <range>" && conformsChildren ["<cycle>", "between", "<range>", "and", "<range>"] children) ||
    (sym == "<timediff>" && spec == "<timediff> -> <cycle> from <range> to <range>" && conformsChildren ["<cycle>", "from", "<range>", "to", "<range>"] children) ||
    (sym == "<S>" && spec == "<S> -> <range>" && conformsChildren ["<range>"] children) ||
    (sym == "<S>" && spec == "<S> -> <timediff>" && conformsChildren ["<timediff>"] children))

def conformsChildren : List String → List Subtree → Bool
  | [], [] => true
  | r :: rs, c :: cs => conformsSym r c && conformsChildren rs cs
  | _, _ => false
end

/-! ### The tree evaluator (src/fluxcap/src/time.rs lines 123-298).
Every panic of the source (xtract! mismatch, unknown rule signature,
out-of-range child index, unwrap on a lexical lookup) is modelled as none. -/

/-- Embeds fn num (lines 130-138): resolves an ordinal/year/number leaf. -/
def num : Subtree → Option ℤ
  | .Leaf sym lexeme =>
    match sym with
    | "<ordinal>" => (ordinal lexeme <|> short_ordinal lexeme).map (fun n => (n : ℤ))
    | "<year>" => parseInt lexeme
    | "<number>" => parseInt lexeme
    | _ => none
  | .Node _ _ => none

/-- Embeds fn seq (lines 154-186): resolves a named-seq/duration/cycle/intersect
subtree to a kronos sequence. -/
def seq : Subtree → Option KSeq
  | .Leaf sym lexeme =>
    match sym with
    | "<day-of-week>" => (weekday lexeme).map KSeq.day_of_week
    | "<named-month>" => (month_name lexeme).map KSeq.month_of_year
    | "<day-of-month>" =>
      (ordinal lexeme <|> short_ordinal lexeme).map
        (fun n => KSeq.nthof n KSeq.day KSeq.month)
    | _ => none
  | .Node spec children =>
    match spec, children with
    | "<named-seq> -> <named-month>", c :: _ => seq c
    | "<named-seq> -> <day-of-week>", c :: _ => seq c
    | "<named-seq> -> <day-of-month>", c :: _ => seq c
    | "<duration> -> days?", _ => some KSeq.day
    | "<duration> -> weeks?", _ => some KSeq.week
    | "<duration> -> months?", _ => some KSeq.month
    | "<duration> -> quarters?", _ => some KSeq.quarter
    | "<duration> -> years?", _ => some KSeq.year
    | "<cycle> -> weekends?", _ => some KSeq.weekend
    | "<cycle> -> <duration>", c :: _ => seq c
    | "<cycle> -> <named-seq>", c :: _ => seq c
    | "<intersect> -> <cycle>", c :: _ => seq c
    | "<intersect> -> <intersect> <cycle>", a :: b :: _ => do
      some (KSeq.intersect (← seq a) (← seq b))
    | _, _ => none

/-- Embeds fn semi_seq (lines 140-152): resolves an nth modifier against an
anchor sequence. -/
def semi_seq (aseq : KSeq) : Subtree → Option KSeq
  | .Node spec children =>
    match spec, children with
    | "<nth> -> <the> <ordinal> <cycle> (of|in)", _ :: o :: c :: _ => do
      let n ← num o
      some (KSeq.nthof n.toNat (← seq c) aseq)
    | "<nth> -> <the> last <cycle> (of|in)", _ :: _ :: c :: _ => do
      some (KSeq.lastof 1 (← seq c) aseq)
    | _, _ => none
  | .Leaf _ _ => none

/-- Embeds fn seq_from_grain (lines 188-196). -/
def seq_from_grain : Granularity → KSeq
  | .Day => .day
  | .Week => .week
  | .Month => .month
  | .Quarter => .quarter
  | .Year => .year

/-- Embeds fn calc_duration (lines 198-212): resolves an n-duration subtree to
(count, grain), deriving the grain from the this-occurrence at reftime. -/
def calc_duration (reftime : ℤ) : Subtree → Option (ℤ × Granularity)
  | .Node spec children =>
    match spec, children with
    | "<n-duration> -> a <duration>", _ :: c :: _ =>
      (seq c).map (fun s => (1, (thisSeq s reftime).grain))
    | "<n-duration> -> <number> <duration>", a :: b :: _ => do
      let n ← num a
      let s ← seq b
      some (n, (thisSeq s reftime).grain)
    | _, _ => none
  | .Leaf _ _ => none

/-- Embeds fn eval_range (lines 214-274), the primary resolver. -/
def eval_range (reftime : ℤ) : Subtree → Option Range
  | .Node spec children =>
    match spec, children with
    | "<range> -> today", _ => some (thisSeq .day reftime)
    | "<range> -> tomorrow", _ => some (nextSeq .day 1 reftime)
    | "<range> -> <year>", c :: _ => (num c).map a_year
    | "<range> -> <named-seq>", c :: _ => (seq c).map (fun s => thisSeq s reftime)
    | "<range> -> <the> <day-of-month>", _ :: c :: _ =>
      (seq c).map (fun s => thisSeq s reftime)
    | "<range> -> this <cycle>", _ :: c :: _ =>
      (seq c).map (fun s => thisSeq s reftime)
    | "<range> -> <the> next <cycle>", _ :: _ :: c :: _ =>
      (seq c).map (fun s => nextSeq s 1 reftime)
    | "<range> -> <the> <cycle> after next", _ :: c :: _ =>
      (seq c).map (fun s => nextSeq s 2 reftime)
    | "<range> -> <intersect> <year>", a :: b :: _ => do
      let y := a_year (← num b)
      some (thisSeq (← seq a) y.start)
    | "<range> -> <intersect> <cycle>", a :: b :: _ => do
      some (thisSeq (KSeq.intersect (← seq a) (← seq b)) reftime)
    | "<range> -> <the> <day-of-month> of <range>", _ :: c :: _ :: r :: _ => do
      let inner ← eval_range reftime r
      some (thisSeq (← seq c) inner.start)
    | "<range> -> in <n-duration>", _ :: c :: _ => do
      let (n, grain) ← calc_duration reftime c
      some (shift (thisSeq .day reftime) n grain)
    | "<range> -> <n-duration> ago", c :: _ => do
      let (n, grain) ← calc_duration reftime c
      some (shift (thisSeq .day reftime) (-n) grain)
    | "<range> -> <n-duration> after <range>", c :: _ :: r :: _ => do
      let (n, grain) ← calc_duration reftime c
      let inner ← eval_range reftime r
      some (shift (thisSeq .day inner.start) n grain)
    | "<range> -> <n-duration> before <range>", c :: _ :: r :: _ => do
      let (n, grain) ← calc_duration reftime c
      let inner ← eval_range reftime r
      some (shift (thisSeq .day inner.start) (-n) grain)
    | "<range> -> <nth> <range>", nthn :: r :: _ => do
      let inner ← eval_range reftime r
      let s ← semi_seq (seq_from_grain inner.grain) nthn
      some (thisSeq s inner.start)
    | "<range> -> <nth> <the> <duration>", nthn :: _ :: dur :: _ => do
      let s ← semi_seq (← seq dur) nthn
      some (thisSeq s reftime)
    | _, _ => none
  | .Leaf _ _ => none

/-- Embeds fn eval_timediff (lines 276-298): counts cycle occurrences between
two resolved boundary instants. -/
def eval_timediff (reftime : ℤ) : Subtree → Option ℕ
  | .Node spec children =>
    match spec, children with
    | "<timediff> -> <cycle> until <range>", c :: _ :: r :: _ => do
      let target ← eval_range reftime r
      let s ← seq c
      some (countSkipTake s reftime reftime target.start)
    | "<timediff> -> <cycle> from <range> to <range>", c :: _ :: r1 :: _ :: r2 :: _ => do
      let t0 ← eval_range reftime r1
      let t1 ← eval_range reftime r2
      let s ← seq c
      some (countSkipTake s t0.start t0.start t1.start)
    | "<timediff> -> <cycle> between <range> and <range>", c :: _ :: r1 :: _ :: r2 :: _ => do
      let t0 ← eval_range reftime r1
      let t1 ← eval_range reftime r2
      let s ← seq c
      some (countSkipTake s t0.start t0.start t1.start)
    | _, _ => none
  | .Leaf _ _ => none

/-! ### The facade (TimeMachine, lines 300-362). -/

/-- Model of the Time result union (lines 304-309). -/
inductive Time where
  | Range (r : fluxcap.Range)
  | Count (n : ℕ)
  | Error (msg : String)
deriving DecidableEq, Repr

def tokenizeAux : List Char → List Char → List String
  | [], acc => if acc.isEmpty then [] else [String.mk acc.reverse]
  | c :: rest, acc =>
    if c == ' ' || c == ',' then
      if acc.isEmpty then tokenizeAux rest []
      else String.mk acc.reverse :: tokenizeAux rest []
    else tokenizeAux rest (c :: acc)

/-- Model of the tokenizer collaborator.
Modelled from the spec: lexers DelimTokenizer yields the space/comma
delimited lexemes of the text, skipping empty pieces (spec section 6). -/
def tokenize (s : String) : List String :=
  tokenizeAux s.toList []

/-- Embeds TimeMachine::eval (lines 345-361) after the call to the external
parser: the argument is the parser outcome (none for a parse failure, some
trees for the enumerated derivations), and a returned none models a panic
(the trees[0] indexing or the xtract! in the source). -/
def evalTM (po : Option (List Subtree)) (t0 : ℤ) : Option Time :=
  match po with
  | none => some (Time.Error "Parse errror")
  | some trees =>
    if trees.length > 1 then some (Time.Error "Ambibuous parse")
    else
      match trees with
      | [] => none
      | tree :: _ =>
        match tree with
        | .Leaf _ _ => none
        | .Node spec subn =>
          match spec, subn with
          | "<S> -> <range>", c :: _ => (eval_range t0 c).map Time.Range
          | "<S> -> <timediff>", c :: _ => (eval_timediff t0 c).map Time.Count
          | "<S> -> <range>", [] => none
          | "<S> -> <timediff>", [] => none
          | _, _ => some (Time.Error "Bad time expr")

/-- Modelled from the spec: the contract of the external parsing engine
(spec section 6) — on success it enumerates a nonempty set of derivations,
each a valid derivation of the start symbol. -/
def WellFormedParse (po : Option (List Subtree)) : Prop :=
  ∀ ts, po = some ts → ts ≠ [] ∧ ∀ tr ∈ ts, conformsSym "<S>" tr = true

/-- Modelled from the spec: the contract of the external parsing engine for a
given token stream — every enumerated derivation is a valid derivation of the
start symbol whose leaves spell exactly the token stream. -/
def ParseOutcomeFor (po : Option (List Subtree)) (tokens : List String) : Prop :=
  ∀ ts, po = some ts →
    ts ≠ [] ∧ ∀ tr ∈ ts, conformsSym "<S>" tr = true ∧ yieldOf tr = tokens

/-! ### Order facts about the calendar and the streams. -/

theorem fdm_lt_succ (mi : ℤ) : fdm mi < fdm (mi + 1) := by
  have hm : mi % 12 = 0 ∨ mi % 12 = 1 ∨ mi % 12 = 2 ∨ mi % 12 = 3 ∨
      mi % 12 = 4 ∨ mi % 12 = 5 ∨ mi % 12 = 6 ∨ mi % 12 = 7 ∨
      mi % 12 = 8 ∨ mi % 12 = 9 ∨ mi % 12 = 10 ∨ mi % 12 = 11 := by omega
  rcases hm with h | h | h | h | h | h | h | h | h | h | h | h <;>
    first
      | (have h1 : (mi + 1) / 12 = mi / 12 ∧ (mi + 1) % 12 = mi % 12 + 1 := by omega;
         unfold fdm dfc; rw [h1.1, h1.2, h]; norm_num; try omega)
      | (have h1 : (mi + 1) / 12 = mi / 12 + 1 ∧ (mi + 1) % 12 = 0 := by omega;
         unfold fdm dfc; rw [h1.1, h1.2, h]; norm_num; try omega)

theorem fdm_mono {a b : ℤ} (h : a < b) : fdm a < fdm b := by
  have key : ∀ n : ℕ, fdm a < fdm (a + 1 + n) := by
    intro n
    induction n with
    | zero => simpa using fdm_lt_succ a
    | succ k ih =>
      have := fdm_lt_succ (a + 1 + k)
      have e : a + 1 + (k + 1 : ℕ) = (a + 1 + k) + 1 := by push_cast; ring
      rw [e]
      exact ih.trans this
  have e : b = a + 1 + ((b - a - 1).toNat : ℤ) := by omega
  rw [e]
  exact key _

theorem dfc_year_lt (y : ℤ) : dfc y 1 1 < dfc (y + 1) 1 1 := by
  have h1 : dfc y 1 1 = fdm (12 * y) := by
    unfold fdm
    have : (12 * y) / 12 = y ∧ (12 * y) % 12 = 0 := by omega
    rw [this.1, this.2]
    norm_num
  have h2 : dfc (y + 1) 1 1 = fdm (12 * (y + 1)) := by
    unfold fdm
    have : (12 * (y + 1)) / 12 = y + 1 ∧ (12 * (y + 1)) % 12 = 0 := by omega
    rw [this.1, this.2]
    norm_num
  rw [h1, h2]
  exact fdm_mono (by omega)

/-- The Range invariant of the spec: start precedes the exclusive end, and a
day-grain range spans exactly one day. -/
def RangeInvG (r : Range) : Prop :=
  r.start < r.endt ∧ (r.grain = .Day → r.endt = r.start + 1)

theorem finerGrain_day {a b : Granularity} (h : finerGrain a b = .Day) :
    a = .Day ∨ b = .Day := by
  unfold finerGrain at h
  split at h
  · exact Or.inl h
  · exact Or.inr h

theorem innerListF_inv {innerS : ℤ → ℕ → Range}
    (h : ∀ a i, RangeInvG (innerS a i)) (o : Range) :
    ∀ r ∈ innerListF innerS o, RangeInvG r := by
  intro r hr
  unfold innerListF at hr
  obtain ⟨hr1, _⟩ := List.mem_filter.mp hr
  obtain ⟨j, _, rfl⟩ := List.mem_map.mp hr1
  exact h _ _

theorem collectNthF_inv {pick : Range → Option Range} {outerS : ℕ → Range} {t : ℤ}
    (h : ∀ o r, pick o = some r → RangeInvG r) :
    ∀ fuel j i, RangeInvG (collectNthF pick outerS t fuel j i) := by
  intro fuel
  induction fuel with
  | zero =>
    intro j i
    unfold collectNthF
    exact ⟨by show t < t + 1; omega, fun _ => rfl⟩
  | succ f ih =>
    intro j i
    unfold collectNthF
    cases hp : pick (outerS j) with
    | none => exact ih (j + 1) i
    | some r =>
      by_cases hi : i = 0
      · simpa [hi] using h _ _ hp
      · simpa [hi] using ih (j + 1) (i - 1)

theorem overlapsF_inv {sb : ℤ → ℕ → Range} {x : Range}
    (hx : RangeInvG x) (hb : ∀ a i, RangeInvG (sb a i)) :
    ∀ r ∈ overlapsF sb x, RangeInvG r := by
  intro r hr
  unfold overlapsF at hr
  obtain ⟨y, hy, rfl⟩ := List.mem_map.mp hr
  obtain ⟨hy1, hy2⟩ := List.mem_filter.mp hy
  obtain ⟨k, _, rfl⟩ := List.mem_map.mp hy1
  have hyinv := hb x.start k
  set y := sb x.start k with hy0
  have hc1 : y.start < x.endt := by
    have := hy2
    simp only [Bool.and_eq_true, decide_eq_true_eq] at this
    exact this.1
  have hc2 : x.start < y.endt := by
    have := hy2
    simp only [Bool.and_eq_true, decide_eq_true_eq] at this
    exact this.2
  have hxs := hx.1
  have hys := hyinv.1
  constructor
  · show x.start ⊔ y.start < x.endt ⊓ y.endt
    rw [sup_lt_iff, lt_inf_iff, lt_inf_iff]
    exact ⟨⟨by omega, hc2⟩, ⟨hc1, hys⟩⟩
  · intro hg
    show x.endt ⊓ y.endt = x.start ⊔ y.start + 1
    rcases finerGrain_day hg with hxd | hyd
    · have hx1 := hx.2 hxd
      have e1 : x.start ⊔ y.start = x.start := sup_eq_left.mpr (by omega)
      have e2 : x.endt ⊓ y.endt = x.endt := inf_eq_left.mpr (by omega)
      rw [e1, e2, hx1]
    · have hy1 := hyinv.2 hyd
      have e1 : x.start ⊔ y.start = y.start := sup_eq_right.mpr (by omega)
      have e2 : x.endt ⊓ y.endt = y.endt := inf_eq_right.mpr (by omega)
      rw [e1, e2, hy1]

theorem interPickF_inv {sa sb : ℤ → ℕ → Range} {t : ℤ}
    (ha : ∀ a i, RangeInvG (sa a i)) (hb : ∀ a i, RangeInvG (sb a i)) :
    ∀ fuel j i, RangeInvG (interPickF sa sb t fuel j i) := by
  intro fuel
  induction fuel with
  | zero =>
    intro j i
    unfold interPickF
    exact ⟨by show t < t + 1; omega, fun _ => rfl⟩
  | succ f ih =>
    intro j i
    unfold interPickF
    by_cases hi : i < (overlapsF sb (sa t j)).length
    · simp only [hi, dif_pos]
      exact overlapsF_inv (ha t j) hb _ (List.get_mem _ _ _)
    · simp only [hi, dif_neg, not_false_iff]
      exact ih (j + 1) (i - (overlapsF sb (sa t j)).length)

/-- Every occurrence of every modelled kronos sequence satisfies the Range
invariant: start precedes end, and day-grain occurrences span one day. -/
theorem streamK_inv (k : KSeq) : ∀ t i, RangeInvG (streamK k t i) := by
  induction k with
  | day =>
    intro t i
    exact ⟨by show (t + i : ℤ) < t + i + 1; omega, fun _ => rfl⟩
  | week =>
    intro t i
    refine ⟨?_, fun h => by simp [streamK] at h⟩
    show t - (t + 4) % 7 + 7 * i < t - (t + 4) % 7 + 7 * i + 7
    omega
  | month =>
    intro t i
    refine ⟨?_, fun h => by simp [streamK] at h⟩
    show fdm (monthIndexOf t + i) < fdm (monthIndexOf t + i + 1)
    exact fdm_lt_succ _
  | quarter =>
    intro t i
    refine ⟨?_, fun h => by simp [streamK] at h⟩
    show fdm (3 * (monthIndexOf t / 3 + i)) < fdm (3 * (monthIndexOf t / 3 + i) + 3)
    exact fdm_mono (by omega)
  | year =>
    intro t i
    refine ⟨?_, fun h => by simp [streamK] at h⟩
    show dfc ((civil t).y + i) 1 1 < dfc ((civil t).y + i + 1) 1 1
    exact dfc_year_lt _
  | weekend =>
    intro t i
    refine ⟨?_, fun h => by simp [streamK] at h⟩
    simp only [streamK]
    split <;> omega
  | day_of_week w =>
    intro t i
    exact ⟨by
      show t + ((w : ℤ) - weekdayOf t) % 7 + 7 * i <
        t + ((w : ℤ) - weekdayOf t) % 7 + 7 * i + 1
      omega, fun _ => rfl⟩
  | month_of_year m =>
    intro t i
    refine ⟨?_, fun h => by simp [streamK] at h⟩
    simp only [streamK]
    split <;> exact fdm_lt_succ _
  | nthof n inner outer ih1 ih2 =>
    intro t i
    simp only [streamK]
    refine collectNthF_inv ?_ _ _ _
    intro o r hr
    have := List.get?_mem hr
    exact innerListF_inv ih1 o r this
  | lastof n inner outer ih1 ih2 =>
    intro t i
    simp only [streamK]
    refine collectNthF_inv ?_ _ _ _
    intro o r hr
    have hmem := List.get?_mem hr
    have : r ∈ innerListF (streamK inner) o := (List.mem_reverse).mp hmem
    exact innerListF_inv ih1 o r this
  | intersect a b ih1 ih2 =>
    intro t i
    simp only [streamK]
    exact interPickF_inv ih1 ih2 _ _ _

theorem thisSeq_inv (k : KSeq) (t : ℤ) : RangeInvG (thisSeq k t) :=
  streamK_inv k t 0

theorem nextSeq_inv (k : KSeq) (n : ℕ) (t : ℤ) : RangeInvG (nextSeq k n t) :=
  streamK_inv k t _

theorem shift_inv {r : Range} (h : RangeInvG r) (n : ℤ) (g : Granularity) :
    RangeInvG (shift r n g) := by
  unfold shift
  refine ⟨?_, ?_⟩
  · show addGrain r.start n g < addGrain r.start n g + (r.endt - r.start)
    have := h.1
    omega
  · intro hg
    have h2 := h.2 hg
    show addGrain r.start n g + (r.endt - r.start) = addGrain r.start n g + 1
    omega

theorem a_year_inv (y : ℤ) : RangeInvG (a_year y) :=
  ⟨dfc_year_lt y, fun h => by simp [a_year] at h⟩

/-! ### Inversion lemmas for the conformance checker. -/

theorem conforms_node_elim {sym spec : String} {cs : List Subtree}
    (h : conformsSym sym (Subtree.Node spec cs) = true) :
    ∃ rhs, (sym, rhs) ∈ grammarRules ∧ spec = specOf sym rhs ∧
      conformsChildren rhs cs = true := by
  unfold conformsSym at h
  simp only [Bool.and_eq_true, Bool.or_eq_true] at h
  obtain ⟨hnt, hbig⟩ := h
  rcases hbig with ((((((((((((((((((((((((((((((((((((((((h) | h) | h) | h) | h) | h) | h) | h) | h) | h) | h) | h) | h) | h) | h) | h) | h) | h) | h) | h) | h) | h) | h) | h) | h) | h) | h) | h) | h) | h) | h) | h) | h) | h) | h) | h) | h) | h) | h) | h) | h <;>
  · obtain ⟨⟨hsym1, hspec1⟩, hch⟩ := h
    have e1 := eq_of_beq hsym1
    have e2 := eq_of_beq hspec1
    subst e1
    subst e2
    refine ⟨_, ?_, ?_, hch⟩ <;> decide

theorem conforms_leaf_elim {sym} (hnt : isNT sym = false) {tr}
    (h : conformsSym sym tr = true) :
    ∃ lexeme, tr = Subtree.Leaf sym lexeme ∧ leafPred sym lexeme = true := by
  cases tr with
  | Leaf s lexeme =>
    unfold conformsSym at h
    simp only [Bool.and_eq_true, Bool.not_eq_true', beq_iff_eq] at h
    obtain ⟨⟨_, hs⟩, hp⟩ := h
    subst hs
    exact ⟨lexeme, rfl, hp⟩
  | Node spec cs =>
    unfold conformsSym at h
    simp only [Bool.and_eq_true] at h
    rw [hnt] at h
    exact absurd h.1 (by simp)

theorem conformsChildren_nil_elim {cs : List Subtree}
    (h : conformsChildren [] cs = true) : cs = [] := by
  cases cs with
  | nil => rfl
  | cons c cs2 => simp [conformsChildren] at h

theorem conformsChildren_cons_elim {r rs} {cs : List Subtree}
    (h : conformsChildren (r :: rs) cs = true) :
    ∃ c cs2, cs = c :: cs2 ∧ conformsSym r c = true ∧ conformsChildren rs cs2 = true := by
  cases cs with
  | nil => simp [conformsChildren] at h
  | cons c cs2 =>
    unfold conformsChildren at h
    simp only [Bool.and_eq_true] at h
    exact ⟨c, cs2, rfl, h.1, h.2⟩

/-! ### Step equations for the evaluator match arms (all definitional). -/

theorem seq_dow (lex : String) :
    seq (.Leaf "<day-of-week>" lex) = (weekday lex).map KSeq.day_of_week := rfl

theorem seq_nmonth (lex : String) :
    seq (.Leaf "<named-month>" lex) = (month_name lex).map KSeq.month_of_year := rfl

theorem seq_dom (lex : String) :
    seq (.Leaf "<day-of-month>" lex) =
      (ordinal lex <|> short_ordinal lex).map
        (fun n => KSeq.nthof n KSeq.day KSeq.month) := rfl

theorem seq_ns_nm (c : Subtree) (cs : List Subtree) :
    seq (.Node "<named-seq> -> <named-month>" (c :: cs)) = seq c := rfl

theorem seq_ns_dow (c : Subtree) (cs : List Subtree) :
    seq (.Node "<named-seq> -> <day-of-week>" (c :: cs)) = seq c := rfl

theorem seq_ns_dom (c : Subtree) (cs : List Subtree) :
    seq (.Node "<named-seq> -> <day-of-month>" (c :: cs)) = seq c := rfl

theorem seq_dur_day (cs : List Subtree) :
    seq (.Node "<duration> -> days?" cs) = some KSeq.day := rfl

theorem seq_dur_week (cs : List Subtree) :
    seq (.Node "<duration> -> weeks?" cs) = some KSeq.week := rfl

theorem seq_dur_month (cs : List Subtree) :
    seq (.Node "<duration> -> months?" cs) = some KSeq.month := rfl

theorem seq_dur_quarter (cs : List Subtree) :
    seq (.Node "<duration> -> quarters?" cs) = some KSeq.quarter := rfl

theorem seq_dur_year (cs : List Subtree) :
    seq (.Node "<duration> -> years?" cs) = some KSeq.year := rfl

theorem seq_cyc_weekend (cs : List Subtree) :
    seq (.Node "<cycle> -> weekends?" cs) = some KSeq.weekend := rfl

theorem seq_cyc_dur (c : Subtree) (cs : List Subtree) :
    seq (.Node "<cycle> -> <duration>" (c :: cs)) = seq c := rfl

theorem seq_cyc_ns (c : Subtree) (cs : List Subtree) :
    seq (.Node "<cycle> -> <named-seq>" (c :: cs)) = seq c := rfl

theorem seq_int_cyc (c : Subtree) (cs : List Subtree) :
    seq (.Node "<intersect> -> <cycle>" (c :: cs)) = seq c := rfl

theorem seq_int_int (a b : Subtree) (cs : List Subtree) :
    seq (.Node "<intersect> -> <intersect> <cycle>" (a :: b :: cs)) =
      (seq a).bind (fun x => (seq b).bind (fun y => some (KSeq.intersect x y))) := rfl

theorem num_ordinal (lex : String) :
    num (.Leaf "<ordinal>" lex) =
      (ordinal lex <|> short_ordinal lex).map (fun n => (n : ℤ)) := rfl

theorem num_year (lex : String) : num (.Leaf "<year>" lex) = parseInt lex := rfl

theorem num_number (lex : String) : num (.Leaf "<number>" lex) = parseInt lex := rfl

theorem semi_seq_nth (aseq : KSeq) (t o c : Subtree) (cs : List Subtree) :
    semi_seq aseq (.Node "<nth> -> <the> <ordinal> <cycle> (of|in)" (t :: o :: c :: cs)) =
      (num o).bind (fun n => (seq c).bind
        (fun s => some (KSeq.nthof n.toNat s aseq))) := rfl

theorem semi_seq_last (aseq : KSeq) (t l c : Subtree) (cs : List Subtree) :
    semi_seq aseq (.Node "<nth> -> <the> last <cycle> (of|in)" (t :: l :: c :: cs)) =
      (seq c).bind (fun s => some (KSeq.lastof 1 s aseq)) := rfl

theorem calc_duration_a (reftime : ℤ) (a c : Subtree) (cs : List Subtree) :
    calc_duration reftime (.Node "<n-duration> -> a <duration>" (a :: c :: cs)) =
      (seq c).map (fun s => (1, (thisSeq s reftime).grain)) := rfl

theorem calc_duration_n (reftime : ℤ) (a b : Subtree) (cs : List Subtree) :
    calc_duration reftime (.Node "<n-duration> -> <number> <duration>" (a :: b :: cs)) =
      (num a).bind (fun n => (seq b).bind
        (fun s => some (n, (thisSeq s reftime).grain))) := rfl

theorem eval_range_today (t : ℤ) (cs : List Subtree) :
    eval_range t (.Node "<range> -> today" cs) = some (thisSeq .day t) := rfl

theorem eval_range_tomorrow (t : ℤ) (cs : List Subtree) :
    eval_range t (.Node "<range> -> tomorrow" cs) = some (nextSeq .day 1 t) := rfl

theorem eval_range_year (t : ℤ) (c : Subtree) (cs : List Subtree) :
    eval_range t (.Node "<range> -> <year>" (c :: cs)) = (num c).map a_year := rfl

theorem eval_range_ns (t : ℤ) (c : Subtree) (cs : List Subtree) :
    eval_range t (.Node "<range> -> <named-seq>" (c :: cs)) =
      (seq c).map (fun s => thisSeq s t) := rfl

theorem eval_range_the_dom (t : ℤ) (a c : Subtree) (cs : List Subtree) :
    eval_range t (.Node "<range> -> <the> <day-of-month>" (a :: c :: cs)) =
      (seq c).map (fun s => thisSeq s t) := rfl

theorem eval_range_this (t : ℤ) (a c : Subtree) (cs : List Subtree) :
    eval_range t (.Node "<range> -> this <cycle>" (a :: c :: cs)) =
      (seq c).map (fun s => thisSeq s t) := rfl

theorem eval_range_next (t : ℤ) (a b c : Subtree) (cs : List Subtree) :
    eval_range t (.Node "<range> -> <the> next <cycle>" (a :: b :: c :: cs)) =
      (seq c).map (fun s => nextSeq s 1 t) := rfl

theorem eval_range_afternext (t : ℤ) (a c : Subtree) (cs : List Subtree) :
    eval_range t (.Node "<range> -> <the> <cycle> after next" (a :: c :: cs)) =
      (seq c).map (fun s => nextSeq s 2 t) := rfl

theorem eval_range_int_year (t : ℤ) (a b : Subtree) (cs : List Subtree) :
    eval_range t (.Node "<range> -> <intersect> <year>" (a :: b :: cs)) =
      (num b).bind (fun y => (seq a).bind
        (fun s => some (thisSeq s (a_year y).start))) := rfl

theorem eval_range_int_cyc (t : ℤ) (a b : Subtree) (cs : List Subtree) :
    eval_range t (.Node "<range> -> <intersect> <cycle>" (a :: b :: cs)) =
      (seq a).bind (fun x => (seq b).bind
        (fun y => some (thisSeq (KSeq.intersect x y) t))) := rfl

theorem eval_range_dom_of (t : ℤ) (a c o r : Subtree) (cs : List Subtree) :
    eval_range t (.Node "<range> -> <the> <day-of-month> of <range>" (a :: c :: o :: r :: cs)) =
      (eval_range t r).bind (fun inner => (seq c).bind
        (fun s => some (thisSeq s inner.start))) := rfl

theorem eval_range_in (t : ℤ) (a c : Subtree) (cs : List Subtree) :
    eval_range t (.Node "<range> -> in <n-duration>" (a :: c :: cs)) =
      (calc_duration t c).bind
        (fun p => some (shift (thisSeq .day t) p.1 p.2)) := rfl

theorem eval_range_ago (t : ℤ) (c : Subtree) (cs : List Subtree) :
    eval_range t (.Node "<range> -> <n-duration> ago" (c :: cs)) =
      (calc_duration t c).bind
        (fun p => some (shift (thisSeq .day t) (-p.1) p.2)) := rfl

theorem eval_range_after (t : ℤ) (c a r : Subtree) (cs : List Subtree) :
    eval_range t (.Node "<range> -> <n-duration> after <range>" (c :: a :: r :: cs)) =
      (calc_duration t c).bind (fun p => (eval_range t r).bind
        (fun inner => some (shift (thisSeq .day inner.start) p.1 p.2))) := rfl

theorem eval_range_before (t : ℤ) (c a r : Subtree) (cs : List Subtree) :
    eval_range t (.Node "<range> -> <n-duration> before <range>" (c :: a :: r :: cs)) =
      (calc_duration t c).bind (fun p => (eval_range t r).bind
        (fun inner => some (shift (thisSeq .day inner.start) (-p.1) p.2))) := rfl

theorem eval_range_nth_range (t : ℤ) (nthn r : Subtree) (cs : List Subtree) :
    eval_range t (.Node "<range> -> <nth> <range>" (nthn :: r :: cs)) =
      (eval_range t r).bind (fun inner =>
        (semi_seq (seq_from_grain inner.grain) nthn).bind
          (fun s => some (thisSeq s inner.start))) := rfl

theorem eval_range_nth_dur (t : ℤ) (nthn a dur : Subtree) (cs : List Subtree) :
    eval_range t (.Node "<range> -> <nth> <the> <duration>" (nthn :: a :: dur :: cs)) =
      (seq dur).bind (fun s0 => (semi_seq s0 nthn).bind
        (fun s => some (thisSeq s t))) := rfl

theorem eval_timediff_until (t : ℤ) (c u r : Subtree) (cs : List Subtree) :
    eval_timediff t (.Node "<timediff> -> <cycle> until <range>" (c :: u :: r :: cs)) =
      (eval_range t r).bind (fun target => (seq c).bind
        (fun s => some (countSkipTake s t t target.start))) := rfl

theorem eval_timediff_from (t : ℤ) (c u r1 v r2 : Subtree) (cs : List Subtree) :
    eval_timediff t
        (.Node "<timediff> -> <cycle> from <range> to <range>" (c :: u :: r1 :: v :: r2 :: cs)) =
      (eval_range t r1).bind (fun t0 => (eval_range t r2).bind (fun t1 =>
        (seq c).bind (fun s => some (countSkipTake s t0.start t0.start t1.start)))) := rfl

theorem eval_timediff_between (t : ℤ) (c u r1 v r2 : Subtree) (cs : List Subtree) :
    eval_timediff t
        (.Node "<timediff> -> <cycle> between <range> and <range>" (c :: u :: r1 :: v :: r2 :: cs)) =
      (eval_range t r1).bind (fun t0 => (eval_range t r2).bind (fun t1 =>
        (seq c).bind (fun s => some (countSkipTake s t0.start t0.start t1.start)))) := rfl

/-! ### Enumeration of the grammar productions of each nonterminal. -/

theorem sizeOf_lt_node {c : Subtree} {cs : List Subtree} (h : c ∈ cs) (spec : String) :
    sizeOf c < sizeOf (Subtree.Node spec cs) := by
  have h1 := List.sizeOf_lt_of_mem h
  have h2 : sizeOf (Subtree.Node spec cs) = 1 + sizeOf spec + sizeOf cs := by
    simp [Subtree.Node.sizeOf_spec]
  omega

theorem rules_the {rhs : List String} (h : ("<the>", rhs) ∈ grammarRules) :
    rhs = [] ∨ rhs = ["the"] := by
  simp [grammarRules] at h
  tauto

theorem rules_named_seq {rhs : List String} (h : ("<named-seq>", rhs) ∈ grammarRules) :
    rhs = ["<named-month>"] ∨ rhs = ["<day-of-week>"] ∨ rhs = ["<day-of-month>"] := by
  simp [grammarRules] at h
  tauto

theorem rules_duration {rhs : List String} (h : ("<duration>", rhs) ∈ grammarRules) :
    rhs = ["days?"] ∨ rhs = ["weeks?"] ∨ rhs = ["months?"] ∨ rhs = ["quarters?"] ∨
      rhs = ["years?"] := by
  simp [grammarRules] at h
  tauto

theorem rules_cycle {rhs : List String} (h : ("<cycle>", rhs) ∈ grammarRules) :
    rhs = ["weekends?"] ∨ rhs = ["<duration>"] ∨ rhs = ["<named-seq>"] := by
  simp [grammarRules] at h
  tauto

theorem rules_nth {rhs : List String} (h : ("<nth>", rhs) ∈ grammarRules) :
    rhs = ["<the>", "<ordinal>", "<cycle>", "(of|in)"] ∨
      rhs = ["<the>", "last", "<cycle>", "(of|in)"] := by
  simp [grammarRules] at h
  tauto

theorem rules_intersect {rhs : List String} (h : ("<intersect>", rhs) ∈ grammarRules) :
    rhs = ["<cycle>"] ∨ rhs = ["<intersect>", "<cycle>"] := by
  simp [grammarRules] at h
  tauto

theorem rules_ndur {rhs : List String} (h : ("<n-duration>", rhs) ∈ grammarRules) :
    rhs = ["a", "<duration>"] ∨ rhs = ["<number>", "<duration>"] := by
  simp [grammarRules] at h
  tauto

theorem rules_timediff {rhs : List String} (h : ("<timediff>", rhs) ∈ grammarRules) :
    rhs = ["<cycle>", "until", "<range>"] ∨
      rhs = ["<cycle>", "between", "<range>", "and", "<range>"] ∨
      rhs = ["<cycle>", "from", "<range>", "to", "<range>"] := by
  simp [grammarRules] at h
  tauto

theorem rules_S {rhs : List String} (h : ("<S>", rhs) ∈ grammarRules) :
    rhs = ["<range>"] ∨ rhs = ["<timediff>"] := by
  simp [grammarRules] at h
  tauto

theorem rules_range {rhs : List String} (h : ("<range>", rhs) ∈ grammarRules) :
    rhs = ["today"] ∨ rhs = ["tomorrow"] ∨ rhs = ["<year>"] ∨ rhs = ["<named-seq>"] ∨
      rhs = ["<the>", "<day-of-month>"] ∨ rhs = ["this", "<cycle>"] ∨
      rhs = ["<the>", "next", "<cycle>"] ∨ rhs = ["<the>", "<cycle>", "after", "next"] ∨
      rhs = ["<nth>", "<range>"] ∨ rhs = ["<nth>", "<the>", "<duration>"] ∨
      rhs = ["<intersect>", "<cycle>"] ∨ rhs = ["<intersect>", "<year>"] ∨
      rhs = ["<the>", "<day-of-month>", "of", "<range>"] ∨
      rhs = ["in", "<n-duration>"] ∨ rhs = ["<n-duration>", "ago"] ∨
      rhs = ["<n-duration>", "after", "<range>"] ∨
      rhs = ["<n-duration>", "before", "<range>"] := by
  simp [grammarRules] at h
  tauto

/-! ### Totality of the evaluator on grammar-conforming trees. -/

theorem leafPred_dow (lex : String) :
    leafPred "<day-of-week>" lex = (weekday lex).isSome := rfl

theorem leafPred_nmonth (lex : String) :
    leafPred "<named-month>" lex = (month_name lex).isSome := rfl

theorem leafPred_ordinal_eq (lex : String) :
    leafPred "<ordinal>" lex = (ordinal lex <|> short_ordinal lex).isSome := rfl

theorem leafPred_number_eq (lex : String) :
    leafPred "<number>" lex = (parseInt lex).isSome := rfl

theorem leafPred_dom_elim {lex : String} (h : leafPred "<day-of-month>" lex = true) :
    ∃ n, (ordinal lex <|> short_ordinal lex) = some n ∧ 0 < n ∧ n < 32 := by
  have h2 : (match ordinal lex <|> short_ordinal lex with
      | some dom => decide (0 < dom) && decide (dom < 32)
      | none => false) = true := h
  cases hx : ordinal lex <|> short_ordinal lex with
  | none => rw [hx] at h2; exact absurd h2 (by simp)
  | some n =>
    rw [hx] at h2
    simp only [Bool.and_eq_true, decide_eq_true_eq] at h2
    exact ⟨n, rfl, h2.1, h2.2⟩

theorem leafPred_year_elim {lex : String} (h : leafPred "<year>" lex = true) :
    ∃ y, parseInt lex = some y ∧ 999 < y ∧ y < 2101 := by
  have h2 : (match parseInt lex with
      | some y => decide (999 < y) && decide (y < 2101)
      | none => false) = true := h
  cases hx : parseInt lex with
  | none => rw [hx] at h2; exact absurd h2 (by simp)
  | some y =>
    rw [hx] at h2
    simp only [Bool.and_eq_true, decide_eq_true_eq] at h2
    exact ⟨y, rfl, h2.1, h2.2⟩

/-- The disjunction of symbols at which the source calls fn seq. -/
def SeqArg (tr : Subtree) : Prop :=
  conformsSym "<named-seq>" tr = true ∨ conformsSym "<duration>" tr = true ∨
  conformsSym "<cycle>" tr = true ∨ conformsSym "<intersect>" tr = true ∨
  conformsSym "<day-of-week>" tr = true ∨ conformsSym "<named-month>" tr = true ∨
  conformsSym "<day-of-month>" tr = true

theorem num_total {sym : String} {tr : Subtree}
    (hsym : sym = "<ordinal>" ∨ sym = "<year>" ∨ sym = "<number>")
    (h : conformsSym sym tr = true) : (num tr).isSome := by
  rcases hsym with rfl | rfl | rfl
  · obtain ⟨lex, rfl, hpred⟩ := conforms_leaf_elim (by decide) h
    rw [leafPred_ordinal_eq] at hpred
    obtain ⟨n, hn⟩ := Option.isSome_iff_exists.mp hpred
    simp [num_ordinal, hn]
  · obtain ⟨lex, rfl, hpred⟩ := conforms_leaf_elim (by decide) h
    obtain ⟨y, hy, _⟩ := leafPred_year_elim hpred
    simp [num_year, hy]
  · obtain ⟨lex, rfl, hpred⟩ := conforms_leaf_elim (by decide) h
    rw [leafPred_number_eq] at hpred
    obtain ⟨n, hn⟩ := Option.isSome_iff_exists.mp hpred
    simp [num_number, hn]

theorem seq_total_aux : ∀ N (tr : Subtree), sizeOf tr ≤ N → SeqArg tr → (seq tr).isSome := by
  intro N
  induction N with
  | zero =>
    intro tr hsz _
    cases tr <;> simp [Subtree.Leaf.sizeOf_spec, Subtree.Node.sizeOf_spec] at hsz
  | succ N ih =>
    intro tr hsz harg
    rcases harg with h | h | h | h | h | h | h
    -- named-seq
    · cases tr with
      | Leaf s l => exact absurd h (by simp [conformsSym, isNT, nonterminals])
      | Node spec cs =>
        obtain ⟨rhs, hm, hspec, hch⟩ := conforms_node_elim h
        rcases rules_named_seq hm with rfl | rfl | rfl
        · have hs2 : spec = "<named-seq> -> <named-month>" := hspec
          subst hs2
          obtain ⟨c, cs2, rfl, hc, _⟩ := conformsChildren_cons_elim hch
          have hszc : sizeOf c ≤ N := by
            have := sizeOf_lt_node (List.mem_cons_self c cs2) "<named-seq> -> <named-month>"
            omega
          rw [seq_ns_nm]
          exact ih c hszc (Or.inr (Or.inr (Or.inr (Or.inr (Or.inr (Or.inl hc))))))
        · have hs2 : spec = "<named-seq> -> <day-of-week>" := hspec
          subst hs2
          obtain ⟨c, cs2, rfl, hc, _⟩ := conformsChildren_cons_elim hch
          have hszc : sizeOf c ≤ N := by
            have := sizeOf_lt_node (List.mem_cons_self c cs2) "<named-seq> -> <day-of-week>"
            omega
          rw [seq_ns_dow]
          exact ih c hszc (Or.inr (Or.inr (Or.inr (Or.inr (Or.inl hc)))))
        · have hs2 : spec = "<named-seq> -> <day-of-month>" := hspec
          subst hs2
          obtain ⟨c, cs2, rfl, hc, _⟩ := conformsChildren_cons_elim hch
          have hszc : sizeOf c ≤ N := by
            have := sizeOf_lt_node (List.mem_cons_self c cs2) "<named-seq> -> <day-of-month>"
            omega
          rw [seq_ns_dom]
          exact ih c hszc (Or.inr (Or.inr (Or.inr (Or.inr (Or.inr (Or.inr hc))))))
    -- duration
    · cases tr with
      | Leaf s l => exact absurd h (by simp [conformsSym, isNT, nonterminals])
      | Node spec cs =>
        obtain ⟨rhs, hm, hspec, hch⟩ := conforms_node_elim h
        rcases rules_duration hm with rfl | rfl | rfl | rfl | rfl
        · have hs2 : spec = "<duration> -> days?" := hspec
          subst hs2; rw [seq_dur_day]; rfl
        · have hs2 : spec = "<duration> -> weeks?" := hspec
          subst hs2; rw [seq_dur_week]; rfl
        · have hs2 : spec = "<duration> -> months?" := hspec
          subst hs2; rw [seq_dur_month]; rfl
        · have hs2 : spec = "<duration> -> quarters?" := hspec
          subst hs2; rw [seq_dur_quarter]; rfl
        · have hs2 : spec = "<duration> -> years?" := hspec
          subst hs2; rw [seq_dur_year]; rfl
    -- cycle
    · cases tr with
      | Leaf s l => exact absurd h (by simp [conformsSym, isNT, nonterminals])
      | Node spec cs =>
        obtain ⟨rhs, hm, hspec, hch⟩ := conforms_node_elim h
        rcases rules_cycle hm with rfl | rfl | rfl
        · have hs2 : spec = "<cycle> -> weekends?" := hspec
          subst hs2; rw [seq_cyc_weekend]; rfl
        · have hs2 : spec = "<cycle> -> <duration>" := hspec
          subst hs2
          obtain ⟨c, cs2, rfl, hc, _⟩ := conformsChildren_cons_elim hch
          have hszc : sizeOf c ≤ N := by
            have := sizeOf_lt_node (List.mem_cons_self c cs2) "<cycle> -> <duration>"
            omega
          rw [seq_cyc_dur]
          exact ih c hszc (Or.inr (Or.inl hc))
        · have hs2 : spec = "<cycle> -> <named-seq>" := hspec
          subst hs2
          obtain ⟨c, cs2, rfl, hc, _⟩ := conformsChildren_cons_elim hch
          have hszc : sizeOf c ≤ N := by
            have := sizeOf_lt_node (List.mem_cons_self c cs2) "<cycle> -> <named-seq>"
            omega
          rw [seq_cyc_ns]
          exact ih c hszc (Or.inl hc)
    -- intersect
    · cases tr with
      | Leaf s l => exact absurd h (by simp [conformsSym, isNT, nonterminals])
      | Node spec cs =>
        obtain ⟨rhs, hm, hspec, hch⟩ := conforms_node_elim h
        rcases rules_intersect hm with rfl | rfl
        · have hs2 : spec = "<intersect> -> <cycle>" := hspec
          subst hs2
          obtain ⟨c, cs2, rfl, hc, _⟩ := conformsChildren_cons_elim hch
          have hszc : sizeOf c ≤ N := by
            have := sizeOf_lt_node (List.mem_cons_self c cs2) "<intersect> -> <cycle>"
            omega
          rw [seq_int_cyc]
          exact ih c hszc (Or.inr (Or.inr (Or.inl hc)))
        · have hs2 : spec = "<intersect> -> <intersect> <cycle>" := hspec
          subst hs2
          obtain ⟨a, cs2, rfl, ha, hch2⟩ := conformsChildren_cons_elim hch
          obtain ⟨b, cs3, rfl, hb, _⟩ := conformsChildren_cons_elim hch2
          have hsza : sizeOf a ≤ N := by
            have := sizeOf_lt_node (List.mem_cons_self a (b :: cs3))
              "<intersect> -> <intersect> <cycle>"
            omega
          have hszb : sizeOf b ≤ N := by
            have := sizeOf_lt_node (List.mem_cons_of_mem a (List.mem_cons_self b cs3))
              "<intersect> -> <intersect> <cycle>"
            omega
          obtain ⟨x, hx⟩ := Option.isSome_iff_exists.mp
            (ih a hsza (Or.inr (Or.inr (Or.inr (Or.inl ha)))))
          obtain ⟨y, hy⟩ := Option.isSome_iff_exists.mp
            (ih b hszb (Or.inr (Or.inr (Or.inl hb))))
          rw [seq_int_int, hx, hy]
          rfl
    -- day-of-week leaf
    · obtain ⟨lex, rfl, hpred⟩ := conforms_leaf_elim (by decide) h
      rw [leafPred_dow] at hpred
      obtain ⟨w, hw⟩ := Option.isSome_iff_exists.mp hpred
      simp [seq_dow, hw]
    -- named-month leaf
    · obtain ⟨lex, rfl, hpred⟩ := conforms_leaf_elim (by decide) h
      rw [leafPred_nmonth] at hpred
      obtain ⟨m, hm⟩ := Option.isSome_iff_exists.mp hpred
      simp [seq_nmonth, hm]
    -- day-of-month leaf
    · obtain ⟨lex, rfl, hpred⟩ := conforms_leaf_elim (by decide) h
      obtain ⟨n, hn, _⟩ := leafPred_dom_elim hpred
      simp [seq_dom, hn]

/-- fn seq is total on every subtree at which the source calls it. -/
theorem seq_total {tr : Subtree} (h : SeqArg tr) : (seq tr).isSome :=
  seq_total_aux (sizeOf tr) tr le_rfl h

/-- fn semi_seq is total on grammar-conforming nth subtrees. -/
theorem semi_seq_total {tr : Subtree} (h : conformsSym "<nth>" tr = true) (aseq : KSeq) :
    (semi_seq aseq tr).isSome := by
  cases tr with
  | Leaf s l => exact absurd h (by simp [conformsSym, isNT, nonterminals])
  | Node spec cs =>
    obtain ⟨rhs, hm, hspec, hch⟩ := conforms_node_elim h
    rcases rules_nth hm with rfl | rfl
    · have hs2 : spec = "<nth> -> <the> <ordinal> <cycle> (of|in)" := hspec
      subst hs2
      obtain ⟨t0, cs2, rfl, _, hch2⟩ := conformsChildren_cons_elim hch
      obtain ⟨o, cs3, rfl, ho, hch3⟩ := conformsChildren_cons_elim hch2
      obtain ⟨c, cs4, rfl, hc, _⟩ := conformsChildren_cons_elim hch3
      obtain ⟨n, hn⟩ := Option.isSome_iff_exists.mp (num_total (Or.inl rfl) ho)
      obtain ⟨s, hs⟩ := Option.isSome_iff_exists.mp
        (seq_total (Or.inr (Or.inr (Or.inl hc))))
      rw [semi_seq_nth, hn, hs]
      rfl
    · have hs2 : spec = "<nth> -> <the> last <cycle> (of|in)" := hspec
      subst hs2
      obtain ⟨t0, cs2, rfl, _, hch2⟩ := conformsChildren_cons_elim hch
      obtain ⟨l0, cs3, rfl, _, hch3⟩ := conformsChildren_cons_elim hch2
      obtain ⟨c, cs4, rfl, hc, _⟩ := conformsChildren_cons_elim hch3
      obtain ⟨s, hs⟩ := Option.isSome_iff_exists.mp
        (seq_total (Or.inr (Or.inr (Or.inl hc))))
      rw [semi_seq_last, hs]
      rfl

/-- fn calc_duration is total on grammar-conforming n-duration subtrees. -/
theorem calc_duration_total {tr : Subtree} (h : conformsSym "<n-duration>" tr = true)
    (t : ℤ) : (calc_duration t tr).isSome := by
  cases tr with
  | Leaf s l => exact absurd h (by simp [conformsSym, isNT, nonterminals])
  | Node spec cs =>
    obtain ⟨rhs, hm, hspec, hch⟩ := conforms_node_elim h
    rcases rules_ndur hm with rfl | rfl
    · have hs2 : spec = "<n-duration> -> a <duration>" := hspec
      subst hs2
      obtain ⟨a, cs2, rfl, _, hch2⟩ := conformsChildren_cons_elim hch
      obtain ⟨c, cs3, rfl, hc, _⟩ := conformsChildren_cons_elim hch2
      obtain ⟨s, hs⟩ := Option.isSome_iff_exists.mp (seq_total (Or.inr (Or.inl hc)))
      rw [calc_duration_a, hs]
      rfl
    · have hs2 : spec = "<n-duration> -> <number> <duration>" := hspec
      subst hs2
      obtain ⟨a, cs2, rfl, ha, hch2⟩ := conformsChildren_cons_elim hch
      obtain ⟨c, cs3, rfl, hc, _⟩ := conformsChildren_cons_elim hch2
      obtain ⟨n, hn⟩ := Option.isSome_iff_exists.mp
        (num_total (Or.inr (Or.inr rfl)) ha)
      obtain ⟨s, hs⟩ := Option.isSome_iff_exists.mp (seq_total (Or.inr (Or.inl hc)))
      rw [calc_duration_n, hn, hs]
      rfl

theorem eval_range_total_aux :
    ∀ N (tr : Subtree), sizeOf tr ≤ N → ∀ t : ℤ, conformsSym "<range>" tr = true →
      ∃ r, eval_range t tr = some r ∧ RangeInvG r := by
  intro N
  induction N with
  | zero =>
    intro tr hsz
    cases tr <;> simp [Subtree.Leaf.sizeOf_spec, Subtree.Node.sizeOf_spec] at hsz
  | succ N ih =>
    intro tr hsz t h
    cases tr with
    | Leaf s l => exact absurd h (by simp [conformsSym, isNT, nonterminals])
    | Node spec cs =>
      obtain ⟨rhs, hm, hspec, hch⟩ := conforms_node_elim h
      rcases rules_range hm with rfl | rfl | rfl | rfl | rfl | rfl | rfl | rfl | rfl |
        rfl | rfl | rfl | rfl | rfl | rfl | rfl | rfl
      · -- today
        have hs2 : spec = "<range> -> today" := hspec
        subst hs2
        exact ⟨_, eval_range_today t cs, thisSeq_inv _ _⟩
      · -- tomorrow
        have hs2 : spec = "<range> -> tomorrow" := hspec
        subst hs2
        exact ⟨_, eval_range_tomorrow t cs, nextSeq_inv _ _ _⟩
      · -- bare year
        have hs2 : spec = "<range> -> <year>" := hspec
        subst hs2
        obtain ⟨c, cs2, rfl, hc, _⟩ := conformsChildren_cons_elim hch
        obtain ⟨n, hn⟩ := Option.isSome_iff_exists.mp (num_total (Or.inr (Or.inl rfl)) hc)
        rw [eval_range_year, hn]
        exact ⟨_, rfl, a_year_inv n⟩
      · -- bare named-seq
        have hs2 : spec = "<range> -> <named-seq>" := hspec
        subst hs2
        obtain ⟨c, cs2, rfl, hc, _⟩ := conformsChildren_cons_elim hch
        obtain ⟨s, hs⟩ := Option.isSome_iff_exists.mp (seq_total (Or.inl hc))
        rw [eval_range_ns, hs]
        exact ⟨_, rfl, thisSeq_inv _ _⟩
      · -- the day-of-month
        have hs2 : spec = "<range> -> <the> <day-of-month>" := hspec
        subst hs2
        obtain ⟨a, cs2, rfl, _, hch2⟩ := conformsChildren_cons_elim hch
        obtain ⟨c, cs3, rfl, hc, _⟩ := conformsChildren_cons_elim hch2
        obtain ⟨s, hs⟩ := Option.isSome_iff_exists.mp
          (seq_total (Or.inr (Or.inr (Or.inr (Or.inr (Or.inr (Or.inr hc)))))))
        rw [eval_range_the_dom, hs]
        exact ⟨_, rfl, thisSeq_inv _ _⟩
      · -- this cycle
        have hs2 : spec = "<range> -> this <cycle>" := hspec
        subst hs2
        obtain ⟨a, cs2, rfl, _, hch2⟩ := conformsChildren_cons_elim hch
        obtain ⟨c, cs3, rfl, hc, _⟩ := conformsChildren_cons_elim hch2
        obtain ⟨s, hs⟩ := Option.isSome_iff_exists.mp
          (seq_total (Or.inr (Or.inr (Or.inl hc))))
        rw [eval_range_this, hs]
        exact ⟨_, rfl, thisSeq_inv _ _⟩
      · -- the next cycle
        have hs2 : spec = "<range> -> <the> next <cycle>" := hspec
        subst hs2
        obtain ⟨a, cs2, rfl, _, hch2⟩ := conformsChildren_cons_elim hch
        obtain ⟨b, cs3, rfl, _, hch3⟩ := conformsChildren_cons_elim hch2
        obtain ⟨c, cs4, rfl, hc, _⟩ := conformsChildren_cons_elim hch3
        obtain ⟨s, hs⟩ := Option.isSome_iff_exists.mp
          (seq_total (Or.inr (Or.inr (Or.inl hc))))
        rw [eval_range_next, hs]
        exact ⟨_, rfl, nextSeq_inv _ _ _⟩
      · -- the cycle after next
        have hs2 : spec = "<range> -> <the> <cycle> after next" := hspec
        subst hs2
        obtain ⟨a, cs2, rfl, _, hch2⟩ := conformsChildren_cons_elim hch
        obtain ⟨c, cs3, rfl, hc, _⟩ := conformsChildren_cons_elim hch2
        obtain ⟨s, hs⟩ := Option.isSome_iff_exists.mp
          (seq_total (Or.inr (Or.inr (Or.inl hc))))
        rw [eval_range_afternext, hs]
        exact ⟨_, rfl, nextSeq_inv _ _ _⟩
      · -- nth range
        have hs2 : spec = "<range> -> <nth> <range>" := hspec
        subst hs2
        obtain ⟨nthn, cs2, rfl, hnth, hch2⟩ := conformsChildren_cons_elim hch
        obtain ⟨r0, cs3, rfl, hr0, _⟩ := conformsChildren_cons_elim hch2
        have hszr : sizeOf r0 ≤ N := by
          have := sizeOf_lt_node (List.mem_cons_of_mem nthn (List.mem_cons_self r0 cs3))
            "<range> -> <nth> <range>"
          omega
        obtain ⟨inner, hinner, _⟩ := ih r0 hszr t hr0
        obtain ⟨s, hs⟩ := Option.isSome_iff_exists.mp
          (semi_seq_total hnth (seq_from_grain inner.grain))
        rw [eval_range_nth_range, hinner, Option.some_bind, hs]
        exact ⟨_, rfl, thisSeq_inv _ _⟩
      · -- nth the duration
        have hs2 : spec = "<range> -> <nth> <the> <duration>" := hspec
        subst hs2
        obtain ⟨nthn, cs2, rfl, hnth, hch2⟩ := conformsChildren_cons_elim hch
        obtain ⟨a, cs3, rfl, _, hch3⟩ := conformsChildren_cons_elim hch2
        obtain ⟨dur, cs4, rfl, hdur, _⟩ := conformsChildren_cons_elim hch3
        obtain ⟨s0, hs0⟩ := Option.isSome_iff_exists.mp (seq_total (Or.inr (Or.inl hdur)))
        obtain ⟨s, hs⟩ := Option.isSome_iff_exists.mp (semi_seq_total hnth s0)
        rw [eval_range_nth_dur, hs0, Option.some_bind, hs]
        exact ⟨_, rfl, thisSeq_inv _ _⟩
      · -- intersect cycle
        have hs2 : spec = "<range> -> <intersect> <cycle>" := hspec
        subst hs2
        obtain ⟨a, cs2, rfl, ha, hch2⟩ := conformsChildren_cons_elim hch
        obtain ⟨b, cs3, rfl, hb, _⟩ := conformsChildren_cons_elim hch2
        obtain ⟨x, hx⟩ := Option.isSome_iff_exists.mp
          (seq_total (Or.inr (Or.inr (Or.inr (Or.inl ha)))))
        obtain ⟨y, hy⟩ := Option.isSome_iff_exists.mp
          (seq_total (Or.inr (Or.inr (Or.inl hb))))
        rw [eval_range_int_cyc, hx, Option.some_bind, hy]
        exact ⟨_, rfl, thisSeq_inv _ _⟩
      · -- intersect year
        have hs2 : spec = "<range> -> <intersect> <year>" := hspec
        subst hs2
        obtain ⟨a, cs2, rfl, ha, hch2⟩ := conformsChildren_cons_elim hch
        obtain ⟨b, cs3, rfl, hb, _⟩ := conformsChildren_cons_elim hch2
        obtain ⟨n, hn⟩ := Option.isSome_iff_exists.mp (num_total (Or.inr (Or.inl rfl)) hb)
        obtain ⟨s, hs⟩ := Option.isSome_iff_exists.mp
          (seq_total (Or.inr (Or.inr (Or.inr (Or.inl ha)))))
        rw [eval_range_int_year, hn, Option.some_bind, hs]
        exact ⟨_, rfl, thisSeq_inv _ _⟩
      · -- the day-of-month of range
        have hs2 : spec = "<range> -> <the> <day-of-month> of <range>" := hspec
        subst hs2
        obtain ⟨a, cs2, rfl, _, hch2⟩ := conformsChildren_cons_elim hch
        obtain ⟨c, cs3, rfl, hc, hch3⟩ := conformsChildren_cons_elim hch2
        obtain ⟨o, cs4, rfl, _, hch4⟩ := conformsChildren_cons_elim hch3
        obtain ⟨r0, cs5, rfl, hr0, _⟩ := conformsChildren_cons_elim hch4
        have hszr : sizeOf r0 ≤ N := by
          have := sizeOf_lt_node (List.mem_cons_of_mem a (List.mem_cons_of_mem c
            (List.mem_cons_of_mem o (List.mem_cons_self r0 cs5))))
            "<range> -> <the> <day-of-month> of <range>"
          omega
        obtain ⟨inner, hinner, _⟩ := ih r0 hszr t hr0
        obtain ⟨s, hs⟩ := Option.isSome_iff_exists.mp
          (seq_total (Or.inr (Or.inr (Or.inr (Or.inr (Or.inr (Or.inr hc)))))))
        rw [eval_range_dom_of, hinner, Option.some_bind, hs]
        exact ⟨_, rfl, thisSeq_inv _ _⟩
      · -- in n-duration
        have hs2 : spec = "<range> -> in <n-duration>" := hspec
        subst hs2
        obtain ⟨a, cs2, rfl, _, hch2⟩ := conformsChildren_cons_elim hch
        obtain ⟨c, cs3, rfl, hc, _⟩ := conformsChildren_cons_elim hch2
        obtain ⟨p, hp⟩ := Option.isSome_iff_exists.mp (calc_duration_total hc t)
        rw [eval_range_in, hp]
        exact ⟨_, rfl, shift_inv (thisSeq_inv _ _) _ _⟩
      · -- n-duration ago
        have hs2 : spec = "<range> -> <n-duration> ago" := hspec
        subst hs2
        obtain ⟨c, cs2, rfl, hc, _⟩ := conformsChildren_cons_elim hch
        obtain ⟨p, hp⟩ := Option.isSome_iff_exists.mp (calc_duration_total hc t)
        rw [eval_range_ago, hp]
        exact ⟨_, rfl, shift_inv (thisSeq_inv _ _) _ _⟩
      · -- n-duration after range
        have hs2 : spec = "<range> -> <n-duration> after <range>" := hspec
        subst hs2
        obtain ⟨c, cs2, rfl, hc, hch2⟩ := conformsChildren_cons_elim hch
        obtain ⟨a, cs3, rfl, _, hch3⟩ := conformsChildren_cons_elim hch2
        obtain ⟨r0, cs4, rfl, hr0, _⟩ := conformsChildren_cons_elim hch3
        have hszr : sizeOf r0 ≤ N := by
          have := sizeOf_lt_node (List.mem_cons_of_mem c (List.mem_cons_of_mem a
            (List.mem_cons_self r0 cs4))) "<range> -> <n-duration> after <range>"
          omega
        obtain ⟨p, hp⟩ := Option.isSome_iff_exists.mp (calc_duration_total hc t)
        obtain ⟨inner, hinner, _⟩ := ih r0 hszr t hr0
        rw [eval_range_after, hp, Option.some_bind, hinner]
        exact ⟨_, rfl, shift_inv (thisSeq_inv _ _) _ _⟩
      · -- n-duration before range
        have hs2 : spec = "<range> -> <n-duration> before <range>" := hspec
        subst hs2
        obtain ⟨c, cs2, rfl, hc, hch2⟩ := conformsChildren_cons_elim hch
        obtain ⟨a, cs3, rfl, _, hch3⟩ := conformsChildren_cons_elim hch2
        obtain ⟨r0, cs4, rfl, hr0, _⟩ := conformsChildren_cons_elim hch3
        have hszr : sizeOf r0 ≤ N := by
          have := sizeOf_lt_node (List.mem_cons_of_mem c (List.mem_cons_of_mem a
            (List.mem_cons_self r0 cs4))) "<range> -> <n-duration> before <range>"
          omega
        obtain ⟨p, hp⟩ := Option.isSome_iff_exists.mp (calc_duration_total hc t)
        obtain ⟨inner, hinner, _⟩ := ih r0 hszr t hr0
        rw [eval_range_before, hp, Option.some_bind, hinner]
        exact ⟨_, rfl, shift_inv (thisSeq_inv _ _) _ _⟩

/-- fn eval_range is total on grammar-conforming range subtrees and always
returns a Range satisfying the invariant. -/
theorem eval_range_total {tr : Subtree} (h : conformsSym "<range>" tr = true) (t : ℤ) :
    ∃ r, eval_range t tr = some r ∧ RangeInvG r :=
  eval_range_total_aux (sizeOf tr) tr le_rfl t h

/-- fn eval_timediff is total on grammar-conforming timediff subtrees. -/
theorem eval_timediff_total {tr : Subtree} (h : conformsSym "<timediff>" tr = true)
    (t : ℤ) : (eval_timediff t tr).isSome := by
  cases tr with
  | Leaf s l => exact absurd h (by simp [conformsSym, isNT, nonterminals])
  | Node spec cs =>
    obtain ⟨rhs, hm, hspec, hch⟩ := conforms_node_elim h
    rcases rules_timediff hm with rfl | rfl | rfl
    · have hs2 : spec = "<timediff> -> <cycle> until <range>" := hspec
      subst hs2
      obtain ⟨c, cs2, rfl, hc, hch2⟩ := conformsChildren_cons_elim hch
      obtain ⟨u, cs3, rfl, _, hch3⟩ := conformsChildren_cons_elim hch2
      obtain ⟨r0, cs4, rfl, hr0, _⟩ := conformsChildren_cons_elim hch3
      obtain ⟨target, htarget, _⟩ := eval_range_total hr0 t
      obtain ⟨s, hs⟩ := Option.isSome_iff_exists.mp
        (seq_total (Or.inr (Or.inr (Or.inl hc))))
      rw [eval_timediff_until, htarget, Option.some_bind, hs]
      rfl
    · have hs2 : spec = "<timediff> -> <cycle> between <range> and <range>" := hspec
      subst hs2
      obtain ⟨c, cs2, rfl, hc, hch2⟩ := conformsChildren_cons_elim hch
      obtain ⟨u, cs3, rfl, _, hch3⟩ := conformsChildren_cons_elim hch2
      obtain ⟨r1, cs4, rfl, hr1, hch4⟩ := conformsChildren_cons_elim hch3
      obtain ⟨v, cs5, rfl, _, hch5⟩ := conformsChildren_cons_elim hch4
      obtain ⟨r2, cs6, rfl, hr2, _⟩ := conformsChildren_cons_elim hch5
      obtain ⟨t0, ht0, _⟩ := eval_range_total hr1 t
      obtain ⟨t1, ht1, _⟩ := eval_range_total hr2 t
      obtain ⟨s, hs⟩ := Option.isSome_iff_exists.mp
        (seq_total (Or.inr (Or.inr (Or.inl hc))))
      rw [eval_timediff_between, ht0, Option.some_bind, ht1, Option.some_bind, hs]
      rfl
    · have hs2 : spec = "<timediff> -> <cycle> from <range> to <range>" := hspec
      subst hs2
      obtain ⟨c, cs2, rfl, hc, hch2⟩ := conformsChildren_cons_elim hch
      obtain ⟨u, cs3, rfl, _, hch3⟩ := conformsChildren_cons_elim hch2
      obtain ⟨r1, cs4, rfl, hr1, hch4⟩ := conformsChildren_cons_elim hch3
      obtain ⟨v, cs5, rfl, _, hch5⟩ := conformsChildren_cons_elim hch4
      obtain ⟨r2, cs6, rfl, hr2, _⟩ := conformsChildren_cons_elim hch5
      obtain ⟨t0, ht0, _⟩ := eval_range_total hr1 t
      obtain ⟨t1, ht1, _⟩ := eval_range_total hr2 t
      obtain ⟨s, hs⟩ := Option.isSome_iff_exists.mp
        (seq_total (Or.inr (Or.inr (Or.inl hc))))
      rw [eval_timediff_from, ht0, Option.some_bind, ht1, Option.some_bind, hs]
      rfl

theorem evalTM_none (t : ℤ) : evalTM none t = some (Time.Error "Parse errror") := rfl

theorem evalTM_range_step (c : Subtree) (cs : List Subtree) (t : ℤ) :
    evalTM (some [Subtree.Node "<S> -> <range>" (c :: cs)]) t =
      (eval_range t c).map Time.Range := rfl

theorem evalTM_timediff_step (c : Subtree) (cs : List Subtree) (t : ℤ) :
    evalTM (some [Subtree.Node "<S> -> <timediff>" (c :: cs)]) t =
      (eval_timediff t c).map Time.Count := rfl

theorem evalTM_ambiguous {ts : List Subtree} (h : ts.length > 1) (t : ℤ) :
    evalTM (some ts) t = some (Time.Error "Ambibuous parse") := by
  cases ts with
  | nil => simp at h
  | cons a r =>
    cases r with
    | nil => simp at h
    | cons b bs =>
      show evalTM (some (a :: b :: bs)) t = some (Time.Error "Ambibuous parse")
      simp [evalTM]

/-- Under the published parser contract, every evaluation outcome is an Error,
an invariant-satisfying Range, or a Count — never the modelled panic. -/
theorem evalTM_cases {po : Option (List Subtree)} (h : WellFormedParse po) (t : ℤ) :
    (∃ msg, evalTM po t = some (Time.Error msg)) ∨
    (∃ r, evalTM po t = some (Time.Range r) ∧ RangeInvG r) ∨
    (∃ n, evalTM po t = some (Time.Count n)) := by
  cases po with
  | none => exact Or.inl ⟨_, rfl⟩
  | some ts =>
    obtain ⟨hne, hall⟩ := h ts rfl
    cases ts with
    | nil => exact absurd rfl hne
    | cons tr rest =>
      cases rest with
      | cons b bs =>
        have hlen : (tr :: b :: bs).length > 1 := by simp
        exact Or.inl ⟨_, evalTM_ambiguous hlen t⟩
      | nil =>
        have htr := hall tr (by simp)
        cases tr with
        | Leaf s l => exact absurd htr (by simp [conformsSym, isNT, nonterminals])
        | Node spec cs =>
          obtain ⟨rhs, hm, hspec, hch⟩ := conforms_node_elim htr
          rcases rules_S hm with rfl | rfl
          · have hs2 : spec = "<S> -> <range>" := hspec
            subst hs2
            obtain ⟨c, cs2, rfl, hc, _⟩ := conformsChildren_cons_elim hch
            obtain ⟨r, hr, hinv⟩ := eval_range_total hc t
            refine Or.inr (Or.inl ⟨r, ?_, hinv⟩)
            rw [evalTM_range_step, hr]
            rfl
          · have hs2 : spec = "<S> -> <timediff>" := hspec
            subst hs2
            obtain ⟨c, cs2, rfl, hc, _⟩ := conformsChildren_cons_elim hch
            obtain ⟨n, hn⟩ := Option.isSome_iff_exists.mp (eval_timediff_total hc t)
            refine Or.inr (Or.inr ⟨n, ?_⟩)
            rw [evalTM_timediff_step, hn]
            rfl

/-! ### Yield analysis: the token streams conforming trees can spell. -/

theorem yieldOf_leaf (s l : String) : yieldOf (.Leaf s l) = [l] := rfl

theorem yieldOf_node (spec : String) (cs : List Subtree) :
    yieldOf (.Node spec cs) = yieldList cs := rfl

theorem yieldList_cons (c : Subtree) (cs : List Subtree) :
    yieldList (c :: cs) = yieldOf c ++ yieldList cs := rfl

theorem yieldList_nil : yieldList [] = [] := rfl

/-- All symbols occurring on a right-hand side of some production. -/
def rhsSyms : List String :=
  (grammarRules.map (fun p => p.2)).flatten

theorem mem_rhsSyms {sym : String} {rhs : List String}
    (hm : (sym, rhs) ∈ grammarRules) {r : String} (hr : r ∈ rhs) : r ∈ rhsSyms := by
  unfold rhsSyms
  exact List.mem_flatten.mpr ⟨rhs, List.mem_map.mpr ⟨(sym, rhs), hm, rfl⟩, hr⟩

theorem conformsChildren_forall :
    ∀ (rhs : List String) (cs : List Subtree), conformsChildren rhs cs = true →
      ∀ c ∈ cs, ∃ r ∈ rhs, conformsSym r c = true := by
  intro rhs
  induction rhs with
  | nil =>
    intro cs h c hc
    rw [conformsChildren_nil_elim h] at hc
    simp at hc
  | cons r rs ih =>
    intro cs h c hc
    obtain ⟨c0, cs2, rfl, hc0, hrest⟩ := conformsChildren_cons_elim h
    rcases List.mem_cons.mp hc with rfl | hc2
    · exact ⟨r, List.mem_cons_self _ _, hc0⟩
    · obtain ⟨r2, hr2, hcr2⟩ := ih cs2 hrest c hc2
      exact ⟨r2, List.mem_cons_of_mem _ hr2, hcr2⟩

theorem mem_yieldList :
    ∀ (cs : List Subtree) (x : String), x ∈ yieldList cs → ∃ c ∈ cs, x ∈ yieldOf c := by
  intro cs
  induction cs with
  | nil => intro x hx; simp [yieldList_nil] at hx
  | cons c cs2 ih =>
    intro x hx
    rw [yieldList_cons] at hx
    rcases List.mem_append.mp hx with h1 | h2
    · exact ⟨c, List.mem_cons_self _ _, h1⟩
    · obtain ⟨c2, hc2, hx2⟩ := ih x h2
      exact ⟨c2, List.mem_cons_of_mem _ hc2, hx2⟩

theorem rhsSyms_no_yesterday : ∀ s ∈ rhsSyms, leafPred s "yesterday" = false := by
  decide

/-- No leaf of any conforming derivation carries the lexeme "yesterday":
the terminal "yesterday" occurs in no production right-hand side, and no
other terminal classifier accepts that lexeme. -/
theorem no_yesterday_aux :
    ∀ N (tr : Subtree) (sym : String), sizeOf tr ≤ N →
      (isNT sym = true ∨ sym ∈ rhsSyms) → conformsSym sym tr = true →
      "yesterday" ∉ yieldOf tr := by
  intro N
  induction N with
  | zero =>
    intro tr sym hsz
    cases tr <;> simp [Subtree.Leaf.sizeOf_spec, Subtree.Node.sizeOf_spec] at hsz
  | succ N ih =>
    intro tr sym hsz hused h hmem
    cases tr with
    | Leaf s l =>
      unfold conformsSym at h
      simp only [Bool.and_eq_true, Bool.not_eq_true', beq_iff_eq] at h
      obtain ⟨⟨hnt, hs⟩, hp⟩ := h
      subst hs
      rw [yieldOf_leaf] at hmem
      rcases List.mem_singleton.mp hmem with rfl
      rcases hused with hused | hused
      · rw [hused] at hnt; exact absurd hnt (by simp)
      · rw [rhsSyms_no_yesterday _ hused] at hp
        exact absurd hp (by simp)
    | Node spec cs =>
      obtain ⟨rhs, hm, _, hch⟩ := conforms_node_elim h
      rw [yieldOf_node] at hmem
      obtain ⟨c, hc, hmc⟩ := mem_yieldList cs _ hmem
      obtain ⟨r, hr, hcr⟩ := conformsChildren_forall rhs cs hch c hc
      have hszc : sizeOf c ≤ N := by
        have := sizeOf_lt_node hc spec
        omega
      exact ih c r hszc (Or.inr (mem_rhsSyms hm hr)) hcr hmc

theorem no_yesterday {tr : Subtree} (h : conformsSym "<S>" tr = true) :
    "yesterday" ∉ yieldOf tr :=
  no_yesterday_aux (sizeOf tr) tr "<S>" le_rfl (Or.inl (by decide)) h

theorem conforms_terminal_yield {s : String} (hnt : isNT s = false) {tr : Subtree}
    (h : conformsSym s tr = true) :
    ∃ lex, tr = Subtree.Leaf s lex ∧ leafPred s lex = true ∧ yieldOf tr = [lex] := by
  obtain ⟨lex, rfl, hp⟩ := conforms_leaf_elim hnt h
  exact ⟨lex, rfl, hp, rfl⟩

theorem the_yield {tr : Subtree} (h : conformsSym "<the>" tr = true) :
    yieldOf tr = [] ∨ yieldOf tr = ["the"] := by
  cases tr with
  | Leaf s l => exact absurd h (by simp [conformsSym, isNT, nonterminals])
  | Node spec cs =>
    obtain ⟨rhs, hm, hspec, hch⟩ := conforms_node_elim h
    rcases rules_the hm with rfl | rfl
    · rw [conformsChildren_nil_elim hch]
      exact Or.inl rfl
    · obtain ⟨c, cs2, rfl, hc, hrest⟩ := conformsChildren_cons_elim hch
      rw [conformsChildren_nil_elim hrest]
      obtain ⟨lex, rfl, hp, hy⟩ := conforms_terminal_yield (by decide) hc
      have hlex : (lex == "the") = true := hp
      rw [beq_iff_eq.mp hlex]
      exact Or.inr rfl

theorem named_seq_yield {tr : Subtree} (h : conformsSym "<named-seq>" tr = true) :
    ∃ s lex, (s = "<named-month>" ∨ s = "<day-of-week>" ∨ s = "<day-of-month>") ∧
      leafPred s lex = true ∧ yieldOf tr = [lex] := by
  cases tr with
  | Leaf s l => exact absurd h (by simp [conformsSym, isNT, nonterminals])
  | Node spec cs =>
    obtain ⟨rhs, hm, hspec, hch⟩ := conforms_node_elim h
    rcases rules_named_seq hm with rfl | rfl | rfl <;>
    · obtain ⟨c, cs2, rfl, hc, hrest⟩ := conformsChildren_cons_elim hch
      rw [conformsChildren_nil_elim hrest]
      obtain ⟨lex, rfl, hp, _⟩ := conforms_terminal_yield (by decide) hc
      exact ⟨_, lex, by tauto, hp, by simp [yieldOf_node, yieldOf_leaf, yieldList_cons, yieldList_nil]⟩

theorem duration_yield_len {tr : Subtree} (h : conformsSym "<duration>" tr = true) :
    (yieldOf tr).length = 1 := by
  cases tr with
  | Leaf s l => exact absurd h (by simp [conformsSym, isNT, nonterminals])
  | Node spec cs =>
    obtain ⟨rhs, hm, hspec, hch⟩ := conforms_node_elim h
    rcases rules_duration hm with rfl | rfl | rfl | rfl | rfl <;>
    · obtain ⟨c, cs2, rfl, hc, hrest⟩ := conformsChildren_cons_elim hch
      rw [conformsChildren_nil_elim hrest]
      obtain ⟨lex, rfl, _⟩ := conforms_leaf_elim (by decide) hc
      simp [yieldOf_node, yieldOf_leaf, yieldList_cons, yieldList_nil]

theorem cycle_yield_len {tr : Subtree} (h : conformsSym "<cycle>" tr = true) :
    (yieldOf tr).length = 1 := by
  cases tr with
  | Leaf s l => exact absurd h (by simp [conformsSym, isNT, nonterminals])
  | Node spec cs =>
    obtain ⟨rhs, hm, hspec, hch⟩ := conforms_node_elim h
    rcases rules_cycle hm with rfl | rfl | rfl
    · obtain ⟨c, cs2, rfl, hc, hrest⟩ := conformsChildren_cons_elim hch
      rw [conformsChildren_nil_elim hrest]
      obtain ⟨lex, rfl, _⟩ := conforms_leaf_elim (by decide) hc
      simp [yieldOf_node, yieldOf_leaf, yieldList_cons, yieldList_nil]
    · obtain ⟨c, cs2, rfl, hc, hrest⟩ := conformsChildren_cons_elim hch
      rw [conformsChildren_nil_elim hrest]
      have := duration_yield_len hc
      simp [yieldOf_node, yieldList_cons, yieldList_nil, this]
    · obtain ⟨c, cs2, rfl, hc, hrest⟩ := conformsChildren_cons_elim hch
      rw [conformsChildren_nil_elim hrest]
      obtain ⟨s, lex, _, _, hy⟩ := named_seq_yield hc
      simp [yieldOf_node, yieldList_cons, yieldList_nil, hy]

theorem intersect_yield_pos {tr : Subtree} (h : conformsSym "<intersect>" tr = true) :
    1 ≤ (yieldOf tr).length := by
  cases tr with
  | Leaf s l => exact absurd h (by simp [conformsSym, isNT, nonterminals])
  | Node spec cs =>
    obtain ⟨rhs, hm, hspec, hch⟩ := conforms_node_elim h
    rcases rules_intersect hm with rfl | rfl
    · obtain ⟨c, cs2, rfl, hc, hrest⟩ := conformsChildren_cons_elim hch
      rw [conformsChildren_nil_elim hrest]
      have := cycle_yield_len hc
      simp [yieldOf_node, yieldList_cons, yieldList_nil, this]
    · obtain ⟨a, cs2, rfl, ha, hch2⟩ := conformsChildren_cons_elim hch
      obtain ⟨b, cs3, rfl, hb, hrest⟩ := conformsChildren_cons_elim hch2
      rw [conformsChildren_nil_elim hrest]
      have := cycle_yield_len hb
      simp [yieldOf_node, yieldList_cons, yieldList_nil, this]

theorem ndur_yield_len {tr : Subtree} (h : conformsSym "<n-duration>" tr = true) :
    (yieldOf tr).length = 2 := by
  cases tr with
  | Leaf s l => exact absurd h (by simp [conformsSym, isNT, nonterminals])
  | Node spec cs =>
    obtain ⟨rhs, hm, hspec, hch⟩ := conforms_node_elim h
    rcases rules_ndur hm with rfl | rfl <;>
    · obtain ⟨a, cs2, rfl, ha, hch2⟩ := conformsChildren_cons_elim hch
      obtain ⟨c, cs3, rfl, hc, hrest⟩ := conformsChildren_cons_elim hch2
      rw [conformsChildren_nil_elim hrest]
      obtain ⟨lex, rfl, _⟩ := conforms_leaf_elim (by decide) ha
      have := duration_yield_len hc
      simp [yieldOf_node, yieldOf_leaf, yieldList_cons, yieldList_nil, this]

theorem nth_yield_len {tr : Subtree} (h : conformsSym "<nth>" tr = true) :
    3 ≤ (yieldOf tr).length := by
  cases tr with
  | Leaf s l => exact absurd h (by simp [conformsSym, isNT, nonterminals])
  | Node spec cs =>
    obtain ⟨rhs, hm, hspec, hch⟩ := conforms_node_elim h
    rcases rules_nth hm with rfl | rfl <;>
    · obtain ⟨a, cs2, rfl, ha, hch2⟩ := conformsChildren_cons_elim hch
      obtain ⟨o, cs3, rfl, ho, hch3⟩ := conformsChildren_cons_elim hch2
      obtain ⟨c, cs4, rfl, hc, hch4⟩ := conformsChildren_cons_elim hch3
      obtain ⟨i, cs5, rfl, hi, hrest⟩ := conformsChildren_cons_elim hch4
      rw [conformsChildren_nil_elim hrest]
      obtain ⟨lex1, rfl, _⟩ := conforms_leaf_elim (by decide) ho
      obtain ⟨lex2, rfl, _⟩ := conforms_leaf_elim (by decide) hi
      have h1 := cycle_yield_len hc
      rcases the_yield ha with h2 | h2 <;>
        simp [yieldOf_node, yieldOf_leaf, yieldList_cons, yieldList_nil, h1, h2]

/-- The only conforming derivation of the range symbol whose leaves spell
exactly "2002" is the bare-year production applied to the year leaf. -/
theorem range_2002 {tr : Subtree} (h : conformsSym "<range>" tr = true)
    (hy : yieldOf tr = ["2002"]) :
    tr = Subtree.Node "<range> -> <year>" [Subtree.Leaf "<year>" "2002"] := by
  cases tr with
  | Leaf s l => exact absurd h (by simp [conformsSym, isNT, nonterminals])
  | Node spec cs =>
    obtain ⟨rhs, hm, hspec, hch⟩ := conforms_node_elim h
    rcases rules_range hm with rfl | rfl | rfl | rfl | rfl | rfl | rfl | rfl | rfl |
      rfl | rfl | rfl | rfl | rfl | rfl | rfl | rfl
    · -- today
      obtain ⟨c, cs2, rfl, hc, hrest⟩ := conformsChildren_cons_elim hch
      rw [conformsChildren_nil_elim hrest] at hy
      obtain ⟨lex, rfl, hpred⟩ := conforms_leaf_elim (by decide) hc
      simp [yieldOf_node, yieldOf_leaf, yieldList_cons, yieldList_nil] at hy
      subst hy
      exact absurd hpred (by decide)
    · -- tomorrow
      obtain ⟨c, cs2, rfl, hc, hrest⟩ := conformsChildren_cons_elim hch
      rw [conformsChildren_nil_elim hrest] at hy
      obtain ⟨lex, rfl, hpred⟩ := conforms_leaf_elim (by decide) hc
      simp [yieldOf_node, yieldOf_leaf, yieldList_cons, yieldList_nil] at hy
      subst hy
      exact absurd hpred (by decide)
    · -- bare year: the only surviving derivation
      have hs2 : spec = "<range> -> <year>" := hspec
      subst hs2
      obtain ⟨c, cs2, rfl, hc, hrest⟩ := conformsChildren_cons_elim hch
      have hnil := conformsChildren_nil_elim hrest
      subst hnil
      obtain ⟨lex, rfl, hpred⟩ := conforms_leaf_elim (by decide) hc
      simp [yieldOf_node, yieldOf_leaf, yieldList_cons, yieldList_nil] at hy
      subst hy
      rfl
    · -- bare named-seq
      obtain ⟨c, cs2, rfl, hc, hrest⟩ := conformsChildren_cons_elim hch
      rw [conformsChildren_nil_elim hrest] at hy
      obtain ⟨s, lex, hsor, hpred, hyc⟩ := named_seq_yield hc
      rw [yieldOf_node, yieldList_cons, yieldList_nil, hyc] at hy
      simp at hy
      subst hy
      rcases hsor with rfl | rfl | rfl <;> exact absurd hpred (by decide)
    · -- the day-of-month
      obtain ⟨a, cs2, rfl, ha, hch2⟩ := conformsChildren_cons_elim hch
      obtain ⟨c, cs3, rfl, hc, hrest⟩ := conformsChildren_cons_elim hch2
      rw [conformsChildren_nil_elim hrest] at hy
      obtain ⟨lex, rfl, hpred⟩ := conforms_leaf_elim (by decide) hc
      rcases the_yield ha with h2 | h2 <;>
        rw [yieldOf_node, yieldList_cons, yieldList_cons, yieldList_nil, h2] at hy <;>
        simp [yieldOf_leaf] at hy
      subst hy
      exact absurd hpred (by decide)
    · -- this cycle
      obtain ⟨a, cs2, rfl, ha, hch2⟩ := conformsChildren_cons_elim hch
      obtain ⟨c, cs3, rfl, hc, hrest⟩ := conformsChildren_cons_elim hch2
      rw [conformsChildren_nil_elim hrest] at hy
      obtain ⟨lex, rfl, hpred⟩ := conforms_leaf_elim (by decide) ha
      have hlen := congrArg List.length hy
      simp [yieldOf_node, yieldOf_leaf, yieldList_cons, yieldList_nil,
        cycle_yield_len hc] at hlen
    · -- the next cycle
      obtain ⟨a, cs2, rfl, ha, hch2⟩ := conformsChildren_cons_elim hch
      obtain ⟨b, cs3, rfl, hb, hch3⟩ := conformsChildren_cons_elim hch2
      obtain ⟨c, cs4, rfl, hc, hrest⟩ := conformsChildren_cons_elim hch3
      rw [conformsChildren_nil_elim hrest] at hy
      obtain ⟨lex, rfl, hpred⟩ := conforms_leaf_elim (by decide) hb
      have hlen := congrArg List.length hy
      rcases the_yield ha with h2 | h2 <;>
        simp [yieldOf_node, yieldOf_leaf, yieldList_cons, yieldList_nil, h2,
          cycle_yield_len hc] at hlen
    · -- the cycle after next
      obtain ⟨a, cs2, rfl, ha, hch2⟩ := conformsChildren_cons_elim hch
      obtain ⟨c, cs3, rfl, hc, hch3⟩ := conformsChildren_cons_elim hch2
      obtain ⟨d, cs4, rfl, hd, hch4⟩ := conformsChildren_cons_elim hch3
      obtain ⟨e, cs5, rfl, he, hrest⟩ := conformsChildren_cons_elim hch4
      rw [conformsChildren_nil_elim hrest] at hy
      obtain ⟨lex1, rfl, _⟩ := conforms_leaf_elim (by decide) hd
      obtain ⟨lex2, rfl, _⟩ := conforms_leaf_elim (by decide) he
      have hlen := congrArg List.length hy
      rcases the_yield ha with h2 | h2 <;>
        simp [yieldOf_node, yieldOf_leaf, yieldList_cons, yieldList_nil, h2,
          cycle_yield_len hc] at hlen
    · -- nth range
      obtain ⟨a, cs2, rfl, ha, hch2⟩ := conformsChildren_cons_elim hch
      obtain ⟨r0, cs3, rfl, hr0, hrest⟩ := conformsChildren_cons_elim hch2
      rw [conformsChildren_nil_elim hrest] at hy
      have h1 := nth_yield_len ha
      rw [yieldOf_node, yieldList_cons, yieldList_cons, yieldList_nil] at hy
      have hlen := congrArg List.length hy
      simp [List.length_append] at hlen
      omega
    · -- nth the duration
      obtain ⟨a, cs2, rfl, ha, hch2⟩ := conformsChildren_cons_elim hch
      obtain ⟨b, cs3, rfl, hb, hch3⟩ := conformsChildren_cons_elim hch2
      obtain ⟨c, cs4, rfl, hc, hrest⟩ := conformsChildren_cons_elim hch3
      rw [conformsChildren_nil_elim hrest] at hy
      have h1 := nth_yield_len ha
      rw [yieldOf_node, yieldList_cons, yieldList_cons, yieldList_cons, yieldList_nil] at hy
      have hlen := congrArg List.length hy
      simp [List.length_append] at hlen
      omega
    · -- intersect cycle
      obtain ⟨a, cs2, rfl, ha, hch2⟩ := conformsChildren_cons_elim hch
      obtain ⟨b, cs3, rfl, hb, hrest⟩ := conformsChildren_cons_elim hch2
      rw [conformsChildren_nil_elim hrest] at hy
      have h1 := intersect_yield_pos ha
      have h2 := cycle_yield_len hb
      rw [yieldOf_node, yieldList_cons, yieldList_cons, yieldList_nil] at hy
      have hlen := congrArg List.length hy
      simp only [List.length_append, List.length_cons, List.length_nil] at hlen
      omega
    · -- intersect year
      obtain ⟨a, cs2, rfl, ha, hch2⟩ := conformsChildren_cons_elim hch
      obtain ⟨b, cs3, rfl, hb, hrest⟩ := conformsChildren_cons_elim hch2
      rw [conformsChildren_nil_elim hrest] at hy
      obtain ⟨lex, rfl, _⟩ := conforms_leaf_elim (by decide) hb
      have h1 := intersect_yield_pos ha
      rw [yieldOf_node, yieldList_cons, yieldList_cons, yieldList_nil, yieldOf_leaf] at hy
      have hlen := congrArg List.length hy
      simp only [List.length_append, List.length_cons, List.length_nil] at hlen
      omega
    · -- the day-of-month of range
      obtain ⟨a, cs2, rfl, ha, hch2⟩ := conformsChildren_cons_elim hch
      obtain ⟨c, cs3, rfl, hc, hch3⟩ := conformsChildren_cons_elim hch2
      obtain ⟨o, cs4, rfl, ho, hch4⟩ := conformsChildren_cons_elim hch3
      obtain ⟨r0, cs5, rfl, hr0, hrest⟩ := conformsChildren_cons_elim hch4
      rw [conformsChildren_nil_elim hrest] at hy
      obtain ⟨lex1, rfl, _⟩ := conforms_leaf_elim (by decide) hc
      obtain ⟨lex2, rfl, _⟩ := conforms_leaf_elim (by decide) ho
      have hlen := congrArg List.length hy
      rcases the_yield ha with h2 | h2 <;>
        simp [yieldOf_node, yieldOf_leaf, yieldList_cons, yieldList_nil, h2] at hlen
    · -- in n-duration
      obtain ⟨a, cs2, rfl, ha, hch2⟩ := conformsChildren_cons_elim hch
      obtain ⟨c, cs3, rfl, hc, hrest⟩ := conformsChildren_cons_elim hch2
      rw [conformsChildren_nil_elim hrest] at hy
      obtain ⟨lex, rfl, _⟩ := conforms_leaf_elim (by decide) ha
      have hlen := congrArg List.length hy
      simp [yieldOf_node, yieldOf_leaf, yieldList_cons, yieldList_nil,
        ndur_yield_len hc] at hlen
    · -- n-duration ago
      obtain ⟨c, cs2, rfl, hc, hch2⟩ := conformsChildren_cons_elim hch
      obtain ⟨a, cs3, rfl, ha, hrest⟩ := conformsChildren_cons_elim hch2
      rw [conformsChildren_nil_elim hrest] at hy
      obtain ⟨lex, rfl, _⟩ := conforms_leaf_elim (by decide) ha
      have hlen := congrArg List.length hy
      simp [yieldOf_node, yieldOf_leaf, yieldList_cons, yieldList_nil,
        ndur_yield_len hc] at hlen
    · -- n-duration after range
      obtain ⟨c, cs2, rfl, hc, hch2⟩ := conformsChildren_cons_elim hch
      obtain ⟨a, cs3, rfl, ha, hch3⟩ := conformsChildren_cons_elim hch2
      obtain ⟨r0, cs4, rfl, hr0, hrest⟩ := conformsChildren_cons_elim hch3
      rw [conformsChildren_nil_elim hrest] at hy
      obtain ⟨lex, rfl, _⟩ := conforms_leaf_elim (by decide) ha
      have hlen := congrArg List.length hy
      simp [yieldOf_node, yieldOf_leaf, yieldList_cons, yieldList_nil,
        ndur_yield_len hc] at hlen
      omega
    · -- n-duration before range
      obtain ⟨c, cs2, rfl, hc, hch2⟩ := conformsChildren_cons_elim hch
      obtain ⟨a, cs3, rfl, ha, hch3⟩ := conformsChildren_cons_elim hch2
      obtain ⟨r0, cs4, rfl, hr0, hrest⟩ := conformsChildren_cons_elim hch3
      rw [conformsChildren_nil_elim hrest] at hy
      obtain ⟨lex, rfl, _⟩ := conforms_leaf_elim (by decide) ha
      have hlen := congrArg List.length hy
      simp [yieldOf_node, yieldOf_leaf, yieldList_cons, yieldList_nil,
        ndur_yield_len hc] at hlen
      omega

theorem timediff_yield_len {tr : Subtree} (h : conformsSym "<timediff>" tr = true) :
    2 ≤ (yieldOf tr).length := by
  cases tr with
  | Leaf s l => exact absurd h (by simp [conformsSym, isNT, nonterminals])
  | Node spec cs =>
    obtain ⟨rhs, hm, hspec, hch⟩ := conforms_node_elim h
    rcases rules_timediff hm with rfl | rfl | rfl
    · obtain ⟨c, cs2, rfl, hc, hch2⟩ := conformsChildren_cons_elim hch
      obtain ⟨u, cs3, rfl, hu, hch3⟩ := conformsChildren_cons_elim hch2
      obtain ⟨r0, cs4, rfl, hr0, hrest⟩ := conformsChildren_cons_elim hch3
      rw [conformsChildren_nil_elim hrest]
      obtain ⟨lex, rfl, _⟩ := conforms_leaf_elim (by decide) hu
      have h1 := cycle_yield_len hc
      rw [yieldOf_node, yieldList_cons, yieldList_cons, yieldList_cons, yieldList_nil,
        yieldOf_leaf]
      simp only [List.length_append, List.length_cons, List.length_nil]
      omega
    · obtain ⟨c, cs2, rfl, hc, hch2⟩ := conformsChildren_cons_elim hch
      obtain ⟨u, cs3, rfl, hu, hch3⟩ := conformsChildren_cons_elim hch2
      obtain ⟨r1, cs4, rfl, hr1, hch4⟩ := conformsChildren_cons_elim hch3
      obtain ⟨v, cs5, rfl, hv, hch5⟩ := conformsChildren_cons_elim hch4
      obtain ⟨r2, cs6, rfl, hr2, hrest⟩ := conformsChildren_cons_elim hch5
      rw [conformsChildren_nil_elim hrest]
      obtain ⟨lex1, rfl, _⟩ := conforms_leaf_elim (by decide) hu
      obtain ⟨lex2, rfl, _⟩ := conforms_leaf_elim (by decide) hv
      have h1 := cycle_yield_len hc
      rw [yieldOf_node, yieldList_cons, yieldList_cons, yieldList_cons, yieldList_cons,
        yieldList_cons, yieldList_nil, yieldOf_leaf, yieldOf_leaf]
      simp only [List.length_append, List.length_cons, List.length_nil]
      omega
    · obtain ⟨c, cs2, rfl, hc, hch2⟩ := conformsChildren_cons_elim hch
      obtain ⟨u, cs3, rfl, hu, hch3⟩ := conformsChildren_cons_elim hch2
      obtain ⟨r1, cs4, rfl, hr1, hch4⟩ := conformsChildren_cons_elim hch3
      obtain ⟨v, cs5, rfl, hv, hch5⟩ := conformsChildren_cons_elim hch4
      obtain ⟨r2, cs6, rfl, hr2, hrest⟩ := conformsChildren_cons_elim hch5
      rw [conformsChildren_nil_elim hrest]
      obtain ⟨lex1, rfl, _⟩ := conforms_leaf_elim (by decide) hu
      obtain ⟨lex2, rfl, _⟩ := conforms_leaf_elim (by decide) hv
      have h1 := cycle_yield_len hc
      rw [yieldOf_node, yieldList_cons, yieldList_cons, yieldList_cons, yieldList_cons,
        yieldList_cons, yieldList_nil, yieldOf_leaf, yieldOf_leaf]
      simp only [List.length_append, List.length_cons, List.length_nil]
      omega

/-- The only conforming derivation of the start symbol spelling "2002" is the
range/bare-year derivation. -/
theorem s_2002 {tr : Subtree} (h : conformsSym "<S>" tr = true)
    (hy : yieldOf tr = ["2002"]) :
    tr = Subtree.Node "<S> -> <range>"
      [Subtree.Node "<range> -> <year>" [Subtree.Leaf "<year>" "2002"]] := by
  cases tr with
  | Leaf s l => exact absurd h (by simp [conformsSym, isNT, nonterminals])
  | Node spec cs =>
    obtain ⟨rhs, hm, hspec, hch⟩ := conforms_node_elim h
    rcases rules_S hm with rfl | rfl
    · have hs2 : spec = "<S> -> <range>" := hspec
      subst hs2
      obtain ⟨c, cs2, rfl, hc, hrest⟩ := conformsChildren_cons_elim hch
      have hnil := conformsChildren_nil_elim hrest
      subst hnil
      rw [yieldOf_node, yieldList_cons, yieldList_nil, List.append_nil] at hy
      rw [range_2002 hc hy]
    · obtain ⟨c, cs2, rfl, hc, hrest⟩ := conformsChildren_cons_elim hch
      rw [conformsChildren_nil_elim hrest] at hy
      have h1 := timediff_yield_len hc
      rw [yieldOf_node, yieldList_cons, yieldList_nil, List.append_nil] at hy
      rw [hy] at h1
      simp at h1

/-! ### Concrete derivation trees of the grammar for the claim inputs. -/

def the_empty : Subtree := .Node "<the> -> " []

def the_lit : Subtree := .Node "<the> -> the" [.Leaf "the" "the"]

def named_dow (w : String) : Subtree :=
  .Node "<named-seq> -> <day-of-week>" [.Leaf "<day-of-week>" w]

def named_mon (m : String) : Subtree :=
  .Node "<named-seq> -> <named-month>" [.Leaf "<named-month>" m]

def cycle_named (s : Subtree) : Subtree := .Node "<cycle> -> <named-seq>" [s]

def tree_next_monday : Subtree :=
  .Node "<S> -> <range>"
    [.Node "<range> -> <the> next <cycle>"
      [the_empty, .Leaf "next" "next", cycle_named (named_dow "monday")]]

def tree_this_monday : Subtree :=
  .Node "<S> -> <range>"
    [.Node "<range> -> this <cycle>"
      [.Leaf "this" "this", cycle_named (named_dow "monday")]]

def tree_2002 : Subtree :=
  .Node "<S> -> <range>" [.Node "<range> -> <year>" [.Leaf "<year>" "2002"]]

def tree_3rd_mon_june : Subtree :=
  .Node "<S> -> <range>"
    [.Node "<range> -> <nth> <range>"
      [.Node "<nth> -> <the> <ordinal> <cycle> (of|in)"
        [the_lit, .Leaf "<ordinal>" "3rd", cycle_named (named_dow "mon"),
         .Leaf "(of|in)" "of"],
       .Node "<range> -> <named-seq>" [named_mon "june"]]]

def tree_days_until_tomorrow : Subtree :=
  .Node "<S> -> <timediff>"
    [.Node "<timediff> -> <cycle> until <range>"
      [.Node "<cycle> -> <duration>" [.Node "<duration> -> days?" [.Leaf "days?" "days"]],
       .Leaf "until" "until",
       .Node "<range> -> tomorrow" [.Leaf "tomorrow" "tomorrow"]]]

def tree_months_until_2018 : Subtree :=
  .Node "<S> -> <timediff>"
    [.Node "<timediff> -> <cycle> until <range>"
      [.Node "<cycle> -> <duration>"
        [.Node "<duration> -> months?" [.Leaf "months?" "months"]],
       .Leaf "until" "until",
       .Node "<range> -> <year>" [.Leaf "<year>" "2018"]]]

def range_2_weeks_ago : Subtree :=
  .Node "<range> -> <n-duration> ago"
    [.Node "<n-duration> -> <number> <duration>"
      [.Leaf "<number>" "2", .Node "<duration> -> weeks?" [.Leaf "weeks?" "weeks"]],
     .Leaf "ago" "ago"]

def tree_today : Subtree :=
  .Node "<S> -> <range>" [.Node "<range> -> today" [.Leaf "today" "today"]]

theorem wf_singleton {tr : Subtree} (h : conformsSym "<S>" tr = true) :
    WellFormedParse (some [tr]) := by
  intro ts hts
  injection hts with hts
  subst hts
  refine ⟨by simp, ?_⟩
  intro tr2 htr2
  rw [List.mem_singleton.mp htr2]
  exact h

theorem pof_singleton {tr : Subtree} {tokens : List String}
    (h : conformsSym "<S>" tr = true) (hy : yieldOf tr = tokens) :
    ParseOutcomeFor (some [tr]) tokens := by
  intro ts hts
  injection hts with hts
  subst hts
  refine ⟨by simp, ?_⟩
  intro tr2 htr2
  rw [List.mem_singleton.mp htr2]
  exact ⟨h, hy⟩

/-! ### The claims. -/

/-- Claim C1, counterexample: the claim states eval returns exactly
Error("parse error") on parse failure and exactly Error("ambiguous parse")
on two or more derivations, but the source returns the misspelled messages
"Parse errror" and "Ambibuous parse", so at the parse-failure outcome (and
at a concrete two-derivation outcome) the claimed exact values are wrong. -/
theorem claim_C1_counterexample :
    evalTM none 0 = some (Time.Error "Parse errror") ∧
    evalTM none 0 ≠ some (Time.Error "parse error") ∧
    evalTM (some [Subtree.Leaf "a" "a", Subtree.Leaf "b" "b"]) 0 =
      some (Time.Error "Ambibuous parse") ∧
    evalTM (some [Subtree.Leaf "a" "a", Subtree.Leaf "b" "b"]) 0 ≠
      some (Time.Error "ambiguous parse") := by
  refine ⟨rfl, by decide, ?_, ?_⟩
  · exact evalTM_ambiguous (by simp) 0
  · rw [evalTM_ambiguous (by simp) 0]
    decide

/-- Claim C1 (amended): on a parse failure eval returns exactly
Error("Parse errror"), and on two or more derivations it returns exactly
Error("Ambibuous parse"), never a Range or Count chosen among them. -/
theorem claim_C1 :
    (∀ t : ℤ, evalTM none t = some (Time.Error "Parse errror")) ∧
    ∀ (ts : List Subtree) (t : ℤ), 2 ≤ ts.length →
      evalTM (some ts) t = some (Time.Error "Ambibuous parse") :=
  ⟨fun _ => rfl, fun _ t h => evalTM_ambiguous (by omega) t⟩

theorem claim_C1_witness :
    evalTM none 0 = some (Time.Error "Parse errror") ∧
    evalTM (some [Subtree.Leaf "a" "a", Subtree.Leaf "b" "b"]) 0 =
      some (Time.Error "Ambibuous parse") :=
  ⟨claim_C1.1 0, claim_C1.2 [Subtree.Leaf "a" "a", Subtree.Leaf "b" "b"] 0 (by decide)⟩

/-- Claim C2: for every reference instant and every parser outcome satisfying
the published parser contract (parse failure, or a nonempty enumeration of
grammar-conforming derivations — which covers every input text), eval returns
normally with a Range, Count or Error; no modelled panic branch (unmatched
rule signature or first-derivation indexing) is reached. -/
theorem claim_C2 (po : Option (List Subtree)) (t : ℤ) (h : WellFormedParse po) :
    (evalTM po t).isSome := by
  rcases evalTM_cases h t with ⟨m, hm⟩ | ⟨r, hr, _⟩ | ⟨n, hn⟩
  · rw [hm]; rfl
  · rw [hr]; rfl
  · rw [hn]; rfl

theorem claim_C2_witness : (evalTM (some [tree_days_until_tomorrow]) 0).isSome :=
  claim_C2 (some [tree_days_until_tomorrow]) 0 (wf_singleton (by decide))

/-- Claim C3: the timediff form counts cycle occurrences skipping while
x.start < reftime and taking while x.start < target.start (the definition of
eval_timediff / countSkipTake); concretely, on the grammar's derivations of
"days until tomorrow" and "months until 2018" at reference 2016-09-05, eval
returns Count 1 and Count 15. -/
theorem claim_C3 :
    (∀ (t : ℤ) (c u r : Subtree) (cs : List Subtree),
      eval_timediff t (.Node "<timediff> -> <cycle> until <range>" (c :: u :: r :: cs)) =
        (eval_range t r).bind (fun target => (seq c).bind
          (fun s => some (countSkipTake s t t target.start)))) ∧
    conformsSym "<S>" tree_days_until_tomorrow = true ∧
    yieldOf tree_days_until_tomorrow = tokenize "days until tomorrow" ∧
    conformsSym "<S>" tree_months_until_2018 = true ∧
    yieldOf tree_months_until_2018 = tokenize "months until 2018" ∧
    evalTM (some [tree_days_until_tomorrow]) (dfc 2016 9 5) = some (Time.Count 1) ∧
    evalTM (some [tree_months_until_2018]) (dfc 2016 9 5) = some (Time.Count 15) := by
  refine ⟨eval_timediff_until, by decide, by decide, by decide, by decide, by decide, by decide⟩

/-- Claim C4: the nth-of-range form resolves the inner range first, builds the
nth-modifier sequence anchored on the base sequence of the inner range's own
grain, and re-resolves this at the inner range's start (the eval_range
equation below); concretely, on the grammar's derivation of
"the 3rd mon of june" at reference 2016-09-05, eval returns the day range
2017-06-19 .. 2017-06-20. -/
theorem claim_C4 :
    (∀ (t : ℤ) (nthn r : Subtree) (cs : List Subtree),
      eval_range t (.Node "<range> -> <nth> <range>" (nthn :: r :: cs)) =
        (eval_range t r).bind (fun inner =>
          (semi_seq (seq_from_grain inner.grain) nthn).bind
            (fun s => some (thisSeq s inner.start)))) ∧
    conformsSym "<S>" tree_3rd_mon_june = true ∧
    yieldOf tree_3rd_mon_june = tokenize "the 3rd mon of june" ∧
    evalTM (some [tree_3rd_mon_june]) (dfc 2016 9 5) =
      some (Time.Range ⟨dfc 2017 6 19, dfc 2017 6 20, Granularity.Day⟩) :=
  ⟨eval_range_nth_range, by decide, by decide, by decide⟩

/-- Claim C5: relative expressions resolve against the reference instant via
next(seq, 1, reftime) and this(seq, reftime); on the grammar's derivations of
"next monday" and "this monday" at reference 2016-09-05 (a Monday), eval
returns the day ranges 2016-09-12 .. 2016-09-13 and 2016-09-05 .. 2016-09-06
respectively. -/
theorem claim_C5 :
    conformsSym "<S>" tree_next_monday = true ∧
    yieldOf tree_next_monday = tokenize "next monday" ∧
    conformsSym "<S>" tree_this_monday = true ∧
    yieldOf tree_this_monday = tokenize "this monday" ∧
    evalTM (some [tree_next_monday]) (dfc 2016 9 5) =
      some (Time.Range ⟨dfc 2016 9 12, dfc 2016 9 13, Granularity.Day⟩) ∧
    evalTM (some [tree_this_monday]) (dfc 2016 9 5) =
      some (Time.Range ⟨dfc 2016 9 5, dfc 2016 9 6, Granularity.Day⟩) :=
  ⟨by decide, by decide, by decide, by decide, by decide, by decide⟩

/-- Claim C6: the absolute form "2002" is reference-independent — for every
pair of reference instants and every parser outcome satisfying the published
contract for the token stream of "2002", eval returns the same result (the
sole derivation is the bare-year production, which evaluates through a_year
without consulting the reference instant). -/
theorem claim_C6 (po : Option (List Subtree)) (t1 t2 : ℤ)
    (h : ParseOutcomeFor po (tokenize "2002")) : evalTM po t1 = evalTM po t2 := by
  cases po with
  | none => rfl
  | some ts =>
    obtain ⟨hne, hall⟩ := h ts rfl
    cases ts with
    | nil => exact absurd rfl hne
    | cons tr rest =>
      cases rest with
      | cons b bs =>
        rw [evalTM_ambiguous (by simp) t1, evalTM_ambiguous (by simp) t2]
      | nil =>
        obtain ⟨hc, hy⟩ := hall tr (by simp)
        have hyt : yieldOf tr = ["2002"] := by rw [hy]; decide
        rw [s_2002 hc hyt]
        rfl

theorem claim_C6_witness :
    evalTM (some [tree_2002]) 0 = evalTM (some [tree_2002]) 999 :=
  claim_C6 (some [tree_2002]) 0 999 (pof_singleton (by decide) (by decide))

theorem leafPred_dom_intro {lex : String} {n : ℕ}
    (hn : (ordinal lex <|> short_ordinal lex) = some n) (h1 : 0 < n) (h2 : n < 32) :
    leafPred "<day-of-month>" lex = true := by
  show (match ordinal lex <|> short_ordinal lex with
    | some dom => decide (0 < dom) && decide (dom < 32)
    | none => false) = true
  rw [hn]
  simp only [Bool.and_eq_true, decide_eq_true_eq]
  exact ⟨h1, h2⟩

theorem leafPred_year_intro {lex : String} {y : ℤ}
    (hy : parseInt lex = some y) (h1 : 999 < y) (h2 : y < 2101) :
    leafPred "<year>" lex = true := by
  show (match parseInt lex with
    | some y => decide (999 < y) && decide (y < 2101)
    | none => false) = true
  rw [hy]
  simp only [Bool.and_eq_true, decide_eq_true_eq]
  exact ⟨h1, h2⟩

/-- Claim C7, counterexample: the claim bounds the ordinal terminal to
values in 1..31, but the source applies no bound there — the lexeme "32nd"
is accepted by the ordinal terminal with value 32. -/
theorem claim_C7_counterexample :
    leafPred "<ordinal>" "32nd" = true ∧
    (ordinal "32nd" <|> short_ordinal "32nd") = some 32 ∧ ¬(32 ≤ 31) := by
  refine ⟨by decide, by decide, by decide⟩

/-- Claim C7 (amended): the day-of-month terminal accepts exactly the ordinal
lexemes with value in 1..31; the ordinal terminal accepts exactly the
recognized ordinal lexemes with no value bound; the year terminal accepts
exactly the integer lexemes y with 999 < y < 2101; the number terminal
accepts exactly the lexemes parseable as an integer. -/
theorem claim_C7 :
    (∀ lex, leafPred "<day-of-month>" lex = true ↔
      ∃ n, (ordinal lex <|> short_ordinal lex) = some n ∧ 1 ≤ n ∧ n ≤ 31) ∧
    (∀ lex, leafPred "<ordinal>" lex = true ↔
      (ordinal lex <|> short_ordinal lex).isSome) ∧
    (∀ lex, leafPred "<year>" lex = true ↔
      ∃ y, parseInt lex = some y ∧ 999 < y ∧ y < 2101) ∧
    (∀ lex, leafPred "<number>" lex = true ↔ (parseInt lex).isSome) := by
  refine ⟨?_, ?_, ?_, ?_⟩
  · intro lex
    constructor
    · intro h
      obtain ⟨n, hn, h1, h2⟩ := leafPred_dom_elim h
      exact ⟨n, hn, by omega, by omega⟩
    · rintro ⟨n, hn, h1, h2⟩
      exact leafPred_dom_intro hn (by omega) (by omega)
  · intro lex
    rw [leafPred_ordinal_eq]
  · intro lex
    constructor
    · intro h
      exact leafPred_year_elim h
    · rintro ⟨y, hy, h1, h2⟩
      exact leafPred_year_intro hy h1 h2
  · intro lex
    rw [leafPred_number_eq]

theorem claim_C7_witness :
    leafPred "<ordinal>" "32nd" = true ∧ leafPred "<day-of-month>" "31st" = true ∧
    leafPred "<day-of-month>" "32nd" = false := by
  refine ⟨(claim_C7.2.1 "32nd").mpr (by decide),
    (claim_C7.1 "31st").mpr ⟨31, by decide, by decide, by decide⟩, ?_⟩
  by_contra hne
  have h2 := (claim_C7.1 "32nd").mp (by revert hne; cases leafPred "<day-of-month>" "32nd" <;> simp)
  obtain ⟨n, hn, _, h31⟩ := h2
  have : n = 32 := by
    have : (ordinal "32nd" <|> short_ordinal "32nd") = some 32 := by decide
    rw [this] at hn
    injection hn with hn
    omega
  omega

/-- Claim C8: under the published parser contract, every Range returned by
eval satisfies start < end, carries a grain among Day, Week, Month, Quarter
and Year, and spans exactly one day whenever its grain is Day. -/
theorem claim_C8 (po : Option (List Subtree)) (t : ℤ) (r : Range)
    (h : WellFormedParse po) (hr : evalTM po t = some (Time.Range r)) :
    (r.start < r.endt ∧ (r.grain = Granularity.Day → r.endt = r.start + 1)) ∧
    r.grain ∈ [Granularity.Day, Granularity.Week, Granularity.Month,
      Granularity.Quarter, Granularity.Year] := by
  rcases evalTM_cases h t with ⟨m, hm⟩ | ⟨r2, hr2, hinv⟩ | ⟨n, hn⟩
  · rw [hm] at hr
    simp at hr
  · rw [hr2] at hr
    injection hr with hr
    injection hr with hr
    subst hr
    exact ⟨hinv, by cases r2.grain <;> simp⟩
  · rw [hn] at hr
    simp at hr

theorem claim_C8_witness :
    ((0 : ℤ) < 1 ∧ (Granularity.Day = Granularity.Day → (1 : ℤ) = 0 + 1)) ∧
    Granularity.Day ∈ [Granularity.Day, Granularity.Week, Granularity.Month,
      Granularity.Quarter, Granularity.Year] :=
  claim_C8 (some [tree_today]) 0 ⟨0, 1, Granularity.Day⟩
    (wf_singleton (by decide)) (by decide)

/-- Claim C9: every shift-form production (in n-duration, n-duration ago,
n-duration after range, n-duration before range) that evaluates successfully
returns a day-grain Range spanning exactly one day — the shift of the one-day
this(day, reftime) range, whatever the shift grain. -/
theorem claim_C9 (t : ℤ) (spec : String) (subn : List Subtree) (r : Range)
    (hspec : spec ∈ ["<range> -> in <n-duration>", "<range> -> <n-duration> ago",
      "<range> -> <n-duration> after <range>", "<range> -> <n-duration> before <range>"])
    (hr : eval_range t (Subtree.Node spec subn) = some r) :
    r.grain = Granularity.Day ∧ r.endt = r.start + 1 := by
  have shift_endt : ∀ (r0 : Range) (n : ℤ) (g : Granularity),
      (shift r0 n g).endt = (shift r0 n g).start + (r0.endt - r0.start) :=
    fun _ _ _ => rfl
  have shift_grain : ∀ (r0 : Range) (n : ℤ) (g : Granularity),
      (shift r0 n g).grain = r0.grain := fun _ _ _ => rfl
  have day_len : ∀ b : ℤ, (thisSeq KSeq.day b).endt = (thisSeq KSeq.day b).start + 1 :=
    fun _ => rfl
  have day_grain : ∀ b : ℤ, (thisSeq KSeq.day b).grain = Granularity.Day :=
    fun _ => rfl
  have hday : ∀ b : ℤ, ∀ g, ∀ n : ℤ,
      (shift (thisSeq KSeq.day b) n g).grain = Granularity.Day ∧
      (shift (thisSeq KSeq.day b) n g).endt = (shift (thisSeq KSeq.day b) n g).start + 1 := by
    intro b g n
    constructor
    · rw [shift_grain, day_grain]
    · rw [shift_endt, day_len]
      omega
  simp only [List.mem_cons] at hspec
  rcases hspec with rfl | rfl | rfl | rfl | h
  · match subn with
    | [] => exact absurd hr (by rw [show eval_range t
        (Subtree.Node "<range> -> in <n-duration>" []) = none from rfl]; simp)
    | [a] => exact absurd hr (by rw [show eval_range t
        (Subtree.Node "<range> -> in <n-duration>" [a]) = none from rfl]; simp)
    | a :: c :: cs =>
      rw [eval_range_in] at hr
      cases hcd : calc_duration t c with
      | none => rw [hcd] at hr; simp at hr
      | some p =>
        rw [hcd, Option.some_bind] at hr
        injection hr with hr
        subst hr
        exact hday t _ _
  · match subn with
    | [] => exact absurd hr (by rw [show eval_range t
        (Subtree.Node "<range> -> <n-duration> ago" []) = none from rfl]; simp)
    | c :: cs =>
      rw [eval_range_ago] at hr
      cases hcd : calc_duration t c with
      | none => rw [hcd] at hr; simp at hr
      | some p =>
        rw [hcd, Option.some_bind] at hr
        injection hr with hr
        subst hr
        exact hday t _ _
  · match subn with
    | [] => exact absurd hr (by rw [show eval_range t
        (Subtree.Node "<range> -> <n-duration> after <range>" []) = none from rfl]; simp)
    | [c] => exact absurd hr (by rw [show eval_range t
        (Subtree.Node "<range> -> <n-duration> after <range>" [c]) = none from rfl]; simp)
    | [c, a] => exact absurd hr (by rw [show eval_range t
        (Subtree.Node "<range> -> <n-duration> after <range>" [c, a]) = none from rfl]; simp)
    | c :: a :: r0 :: cs =>
      rw [eval_range_after] at hr
      cases hcd : calc_duration t c with
      | none => rw [hcd] at hr; simp at hr
      | some p =>
        rw [hcd, Option.some_bind] at hr
        cases hin : eval_range t r0 with
        | none => rw [hin] at hr; simp at hr
        | some inner =>
          rw [hin, Option.some_bind] at hr
          injection hr with hr
          subst hr
          exact hday inner.start _ _
  · match subn with
    | [] => exact absurd hr (by rw [show eval_range t
        (Subtree.Node "<range> -> <n-duration> before <range>" []) = none from rfl]; simp)
    | [c] => exact absurd hr (by rw [show eval_range t
        (Subtree.Node "<range> -> <n-duration> before <range>" [c]) = none from rfl]; simp)
    | [c, a] => exact absurd hr (by rw [show eval_range t
        (Subtree.Node "<range> -> <n-duration> before <range>" [c, a]) = none from rfl]; simp)
    | c :: a :: r0 :: cs =>
      rw [eval_range_before] at hr
      cases hcd : calc_duration t c with
      | none => rw [hcd] at hr; simp at hr
      | some p =>
        rw [hcd, Option.some_bind] at hr
        cases hin : eval_range t r0 with
        | none => rw [hin] at hr; simp at hr
        | some inner =>
          rw [hin, Option.some_bind] at hr
          injection hr with hr
          subst hr
          exact hday inner.start _ _
  · simp at h

theorem claim_C9_witness :
    ∃ r : Range, eval_range (dfc 2016 10 26) range_2_weeks_ago = some r ∧
      r.grain = Granularity.Day ∧ r.endt = r.start + 1 := by
  have h : eval_range (dfc 2016 10 26) range_2_weeks_ago =
      some ⟨dfc 2016 10 12, dfc 2016 10 13, Granularity.Day⟩ := by decide
  exact ⟨_, h, claim_C9 (dfc 2016 10 26) "<range> -> <n-duration> ago" _ _ (by simp) h⟩

/-- Claim C10: "yesterday" is registered as a stop-word terminal but occurs in
no production right-hand side, so under the published parser contract for the
token stream of "yesterday", eval returns the parse Error and never a Range. -/
theorem claim_C10 :
    "yesterday" ∈ stopWords ∧
    (∀ p ∈ grammarRules, "yesterday" ∉ p.2) ∧
    ∀ (po : Option (List Subtree)) (t : ℤ),
      ParseOutcomeFor po (tokenize "yesterday") →
      evalTM po t = some (Time.Error "Parse errror") ∧
      ∀ r, evalTM po t ≠ some (Time.Range r) := by
  refine ⟨by decide, by decide, ?_⟩
  intro po t h
  have hnone : po = none := by
    cases po with
    | none => rfl
    | some ts =>
      obtain ⟨hne, hall⟩ := h ts rfl
      cases ts with
      | nil => exact absurd rfl hne
      | cons tr rest =>
        obtain ⟨hc, hy⟩ := hall tr (by simp)
        have hmem : "yesterday" ∈ yieldOf tr := by rw [hy]; decide
        exact absurd hmem (no_yesterday hc)
  subst hnone
  exact ⟨rfl, fun r hr => by rw [evalTM_none] at hr; simp at hr⟩

theorem claim_C10_witness :
    evalTM none 0 = some (Time.Error "Parse errror") ∧
    ∀ r, evalTM none 0 ≠ some (Time.Range r) :=
  claim_C10.2.2 none 0 (fun _ hts => Option.noConfusion hts)

end fluxcap
